import Mathlib

/-!
# Verification of the item-auras scanner (`src/index.js`)

Shallow embedding of the cache-and-resolve engine of the scanner:

* `getData`           — linear record lookup (`getData` in the source);
* `getAurasForItem`   — the aura resolver (`getAurasForItem`), written with an
  explicit fuel parameter so that the recursion is structural; `resolveAuras`
  runs it with provably sufficient fuel on a fresh state, matching a top-level
  call in the source (default arguments `auras = {}`, `lookedup = new Set()`);
* `updateItemsCache`  — the item cache updater;
* `cacheRelatedSpells` / `updateSpellsCache` — the spell graph expander;
* `processItem`       — the per-item loop of `prepareItemAndSpellData`
  (lines 83–93 of the source).

JavaScript features are modelled as follows: a JS `Set` used only for
membership is a `List Nat` extended exactly when the element is absent; a JS
object used as a map is an association list `List (Nat × String)` with
insertion-order preserving assignment (`setKey`); `effect.AffectedSpell`
truthiness is `≠ 0` (`0` encodes a missing/falsy reference); the `TypeError`
thrown when `getAurasForItem` dereferences `spellData.Effects` on a missing
record is `Except.error RErr.typeError`; the `Fetching data for …` log line
printed by `downloadJson` for every fetch attempt is recorded in an explicit
trace component.
-/

/-- One entry of an item's `Spells` array (only `SpellID` is read). -/
structure SpellRef where
  SpellID : Nat
deriving DecidableEq

/-- An item record as consumed by the engine: `ID`, `Name`, `Spells`. -/
structure Item where
  ID : Nat
  Name : String
  Spells : List SpellRef
deriving DecidableEq

/-- A spell effect: the aura-granting flag `Aura` and the chained spell
reference `AffectedSpell` (`0` = absent/falsy, as tested by
`if (effect.AffectedSpell)` in the source). -/
structure Effect where
  Aura : Bool
  AffectedSpell : Nat
deriving DecidableEq

/-- A spell record: `ID`, `Name`, `Effects`. -/
structure Spell where
  ID : Nat
  Name : String
  Effects : List Effect
deriving DecidableEq

/-- The fixed exclusion set of spell display names (`blacklist` in the
source). -/
def blacklist : List String :=
  ["Drink", "Food", "Food & Drink", "Brain Food", "Refreshment",
   "Refreshing Drink", "Refreshing Food", "Bountiful Drink",
   "Bountiful Food", "Holiday Drink", "Brewfest Drink"]

/-- `getData(id, store)`: sequential search for the first record whose `ID`
matches; `undefined` (here `none`) when the id is not found. -/
def getData (id : Nat) : List Spell → Option Spell
  | [] => none
  | d :: rest => if d.ID = id then some d else getData id rest

/-- JS object assignment `m[k] = v`: overwrite in place when the key exists,
append otherwise (JS objects preserve insertion order of keys). -/
def setKey {α : Type} : List (Nat × α) → Nat → α → List (Nat × α)
  | [], k, v => [(k, v)]
  | (k', v') :: rest, k, v =>
    if k' = k then (k, v) :: rest else (k', v') :: setKey rest k v

/-- The keys of an association list (JS `Object.keys`). -/
def auraKeys {α : Type} (l : List (Nat × α)) : List Nat :=
  l.map Prod.fst

/-- JS object read `m[k]`. -/
def lookupKey {α : Type} : List (Nat × α) → Nat → Option α
  | [], _ => none
  | (k', v') :: rest, k => if k' = k then some v' else lookupKey rest k

/-- The mutable state threaded through `getAurasForItem`: the output object
`auras` and the visited set `lookedup`.  `lookedup` is kept as the list of
ids in the order they were added (most recent first), so it doubles as the
record of which spells were processed. -/
structure RState where
  auras : List (Nat × String)
  lookedup : List Nat
deriving DecidableEq

/-- Failure of the resolver: `typeError` models the uncaught JS `TypeError`
raised when `spellData` is `undefined` and `spellData.Effects` is read
(the `// TODO: throw or return here` path); `fuelOut` is an artifact of the
fuel encoding and is proved unreachable for sufficient fuel. -/
inductive RErr where
  | typeError
  | fuelOut
deriving DecidableEq

/-- The aura-recording statement of the loop body:
`if (effect.Aura && !blacklist.has(spellData.Name)) auras[spellID] = spellData.Name`. -/
def auraStep (nm : String) (spid : Nat) (e : Effect) (s : RState) : RState :=
  if e.Aura && !(blacklist.contains nm) then
    ⟨setKey s.auras spid nm, s.lookedup⟩
  else s

/-- The body of the `for (const effect of spellData.Effects)` loop of
`getAurasForItem`, folded over the effect list: record the aura (unless the
name is blacklisted), then recurse through `AffectedSpell` via `recur`. -/
def effectsFold (recur : Nat → RState → Except RErr RState)
    (nm : String) (spid : Nat) :
    List Effect → RState → Except RErr RState
  | [], s => .ok s
  | e :: rest, s =>
    (if e.AffectedSpell ≠ 0 then recur e.AffectedSpell (auraStep nm spid e s)
     else .ok (auraStep nm spid e s)).bind
      (effectsFold recur nm spid rest)

/-- `getAurasForItem(spellID, spells, auras, lookedup)` with fuel.  Each
recursion level consumes one unit of fuel; `resolveAuras` below supplies
enough fuel for the fuel to never run out (see `resolveAuras_total`). -/
def getAurasForItem (spells : List Spell) : Nat → Nat → RState → Except RErr RState
  | 0, _, _ => .error .fuelOut
  | fuel + 1, spellID, s =>
    if s.lookedup.contains spellID then .ok s
    else
      match getData spellID spells with
      | none => .error .typeError
      | some d =>
        effectsFold (fun i st => getAurasForItem spells fuel i st) d.Name spellID
          d.Effects ⟨s.auras, spellID :: s.lookedup⟩

/-- A top-level call `getAurasForItem(spellID, spells)` from
`prepareItemAndSpellData`: fresh output object and fresh visited set, fuel
one more than the store size (sufficient, since every processed spell id
occurs as the `ID` of a store record). -/
def resolveAuras (spellID : Nat) (spells : List Spell) : Except RErr RState :=
  getAurasForItem spells (spells.length + 1) spellID ⟨[], []⟩

/-- JS `Set.add`: extend the id list only when the id is absent. -/
def addID (cache : List Nat) (id : Nat) : List Nat :=
  if cache.contains id then cache else cache ++ [id]

/-- The id-set derived from a record collection
(`for (const item of items) cache.add(item.ID)`). -/
def cacheOfIDs (ids : List Nat) : List Nat :=
  ids.foldl addID []

/-- Sort an item collection by ascending id
(`items.sort((a, b) => a.ID - b.ID)`). -/
def sortItems (l : List Item) : List Item :=
  l.insertionSort (fun a b => a.ID ≤ b.ID)

/-- Sort a spell collection by ascending id
(`spells.sort((a, b) => a.ID - b.ID)`). -/
def sortSpells (l : List Spell) : List Spell :=
  l.insertionSort (fun a b => a.ID ≤ b.ID)

/-- The `for (const itemID of info)` loop of `updateItemsCache`: skip cached
ids, fetch the rest; on success push the record and add the id, on failure
(`fetch id = none`) log and skip. -/
def fetchLoop (fetch : Nat → Option Item) :
    List Nat → List Item → List Nat → List Item × List Nat
  | [], items, cache => (items, cache)
  | id :: rest, items, cache =>
    if cache.contains id then fetchLoop fetch rest items cache
    else
      match fetch id with
      | some item => fetchLoop fetch rest (items ++ [item]) (cache ++ [id])
      | none => fetchLoop fetch rest items cache

/-- `updateItemsCache(category)`.  `items0` is the loaded cache, `info` the
category's item-id list, `fetch` the remote fetcher (`none` = the fetch
threw).  Returns the in-memory `{ items, cache }` pair together with the
collection passed to `fs.writeJSON` (`none` when no write was issued). -/
def updateItemsCache (fetch : Nat → Option Item) (items0 : List Item)
    (info : List Nat) : List Item × List Nat × Option (List Item) :=
  let cache0 := cacheOfIDs (items0.map (·.ID))
  let numFound := cache0.length
  let r := fetchLoop fetch info items0 cache0
  if r.2.length ≠ numFound then (sortItems r.1, r.2, some (sortItems r.1))
  else (r.1, r.2, none)

/-- The `for (const effect of spell.Effects)` loop of `cacheRelatedSpells`,
folded over the effect list; `recur` is the recursive call; results carry
the fetch-attempt trace. -/
def relatedFold
    (recur : Nat → List Spell → List Nat →
      Option (List Spell × List Nat × List Nat)) :
    List Effect → List Spell → List Nat → List Nat →
      Option (List Spell × List Nat × List Nat)
  | [], spells, cache, tr => some (spells, cache, tr)
  | e :: rest, spells, cache, tr =>
    if e.AffectedSpell ≠ 0 then
      (recur e.AffectedSpell spells cache).bind fun r =>
        relatedFold recur rest r.1 r.2.1 (tr ++ r.2.2)
    else relatedFold recur rest spells cache tr

/-- `cacheRelatedSpells(spellID, spells, cache)` with fuel (`none` = fuel ran
out; proved unreachable for finite fetch domains, `cacheRelatedSpells_total`).
The third component of the result is the list of fetch attempts, in order —
the `Fetching data for spell …` log lines of `downloadJson`; a failed fetch
is logged, leaves `spells` and `cache` untouched, and ends the branch. -/
def cacheRelatedSpells (fetchS : Nat → Option Spell) :
    Nat → Nat → List Spell → List Nat →
      Option (List Spell × List Nat × List Nat)
  | 0, _, _, _ => none
  | fuel + 1, spellID, spells, cache =>
    if cache.contains spellID then some (spells, cache, [])
    else
      match fetchS spellID with
      | none => some (spells, cache, [spellID])
      | some spell =>
        relatedFold (fun i sp c => cacheRelatedSpells fetchS fuel i sp c)
          spell.Effects (spells ++ [spell]) (cache ++ [spellID]) [spellID]

/-- The nested `for (const item of items) for (let spell of item.Spells)`
loop of `updateSpellsCache`, folded over the flattened list of granted spell
ids. -/
def cacheSpellsList (fetchS : Nat → Option Spell) (fuel : Nat) :
    List Nat → List Spell → List Nat →
      Option (List Spell × List Nat × List Nat)
  | [], spells, cache => some (spells, cache, [])
  | id :: rest, spells, cache =>
    (cacheRelatedSpells fetchS fuel id spells cache).bind fun r =>
      (cacheSpellsList fetchS fuel rest r.1 r.2.1).bind fun r' =>
        some (r'.1, r'.2.1, r.2.2 ++ r'.2.2)

/-- `updateSpellsCache(category, items)`: expand the spell graph from every
granted spell of every item, then sort-and-persist when the id-set grew.
Returns `((spells, cache), saved, fetchTrace)`. -/
def updateSpellsCache (fetchS : Nat → Option Spell) (fuel : Nat)
    (spells0 : List Spell) (items : List Item) :
    Option ((List Spell × List Nat) × Option (List Spell) × List Nat) :=
  let cache0 := cacheOfIDs (spells0.map (·.ID))
  let numFound := cache0.length
  (cacheSpellsList fetchS fuel
      (items.flatMap fun it => it.Spells.map (·.SpellID)) spells0 cache0).bind
    fun r =>
      if r.2.1.length ≠ numFound then
        some ((sortSpells r.1, r.2.1), some (sortSpells r.1), r.2.2)
      else some ((r.1, r.2.1), none, r.2.2)

/-- The `for (const spell of item.Spells)` loop of
`prepareItemAndSpellData`: each iteration makes a fresh top-level
`getAurasForItem` call; a non-empty result deletes the item id from
`itemsCache` and `set`s (= overwrites) the item's entry in `categoryData`. -/
def processItemSpells (spells : List Spell) (itemID : Nat) :
    List SpellRef → List (Nat × List (Nat × String)) → List Nat →
      Except RErr (List (Nat × List (Nat × String)) × List Nat)
  | [], cd, ic => .ok (cd, ic)
  | sr :: rest, cd, ic =>
    (resolveAuras sr.SpellID spells).bind fun st =>
      if st.auras.length ≠ 0 then
        processItemSpells spells itemID rest (setKey cd itemID st.auras)
          (ic.erase itemID)
      else processItemSpells spells itemID rest cd ic

/-- Lines 83–93 of the source for one item: resolve every granted spell and
fold the results into `categoryData` / `itemsCache`. -/
def processItem (spells : List Spell) (item : Item)
    (categoryData : List (Nat × List (Nat × String))) (itemsCache : List Nat) :
    Except RErr (List (Nat × List (Nat × String)) × List Nat) :=
  processItemSpells spells item.ID item.Spells categoryData itemsCache

/-! ## Basic lemmas about the association-list and lookup helpers -/

theorem getData_eq_some {id : Nat} {spells : List Spell} {d : Spell}
    (h : getData id spells = some d) : d ∈ spells ∧ d.ID = id := by
  induction spells with
  | nil => simp [getData] at h
  | cons a rest ih =>
    by_cases ha : a.ID = id
    · rw [getData, if_pos ha] at h
      rw [Option.some_inj] at h
      subst h
      exact ⟨List.mem_cons_self _ _, ha⟩
    · rw [getData, if_neg ha] at h
      obtain ⟨hm, hid⟩ := ih h
      exact ⟨List.mem_cons_of_mem a hm, hid⟩

theorem mem_auraKeys_setKey {α : Type} (l : List (Nat × α)) (k x : Nat) (v : α) :
    x ∈ auraKeys (setKey l k v) ↔ x = k ∨ x ∈ auraKeys l := by
  induction l with
  | nil => simp [setKey, auraKeys]
  | cons p rest ih =>
    obtain ⟨k', v'⟩ := p
    by_cases hk : k' = k
    · subst hk
      simp [setKey, auraKeys]
      try tauto
    · simp [setKey, hk, auraKeys] at ih ⊢
      try tauto

theorem lookupKey_setKey_self {α : Type} (l : List (Nat × α)) (k : Nat) (v : α) :
    lookupKey (setKey l k v) k = some v := by
  induction l with
  | nil => simp [setKey, lookupKey]
  | cons p rest ih =>
    obtain ⟨k', v'⟩ := p
    by_cases hk : k' = k
    · simp [setKey, hk, lookupKey]
    · simp [setKey, hk, lookupKey, ih]

/-! ## The resolver's state-extension invariant -/

/-- Each completed resolver call extends the visited set by fresh, pairwise
distinct ids and never removes a key from the output object. -/
def RExt (s s' : RState) : Prop :=
  (∃ t, s'.lookedup = t ++ s.lookedup ∧ (∀ x ∈ t, x ∉ s.lookedup) ∧ t.Nodup) ∧
  (∀ k ∈ auraKeys s.auras, k ∈ auraKeys s'.auras)

theorem rext_refl (s : RState) : RExt s s :=
  ⟨⟨[], rfl, by simp, List.nodup_nil⟩, fun _ hk => hk⟩

theorem RExt.trans {s1 s2 s3 : RState} (h12 : RExt s1 s2) (h23 : RExt s2 s3) :
    RExt s1 s3 := by
  obtain ⟨⟨t1, hl1, hf1, hn1⟩, hk1⟩ := h12
  obtain ⟨⟨t2, hl2, hf2, hn2⟩, hk2⟩ := h23
  refine ⟨⟨t2 ++ t1, ?_, ?_, ?_⟩, fun k hk => hk2 k (hk1 k hk)⟩
  · rw [hl2, hl1, List.append_assoc]
  · intro x hx
    rcases List.mem_append.mp hx with h | h
    · have hx2 := hf2 x h
      rw [hl1] at hx2
      intro hmem
      exact hx2 (List.mem_append.mpr (Or.inr hmem))
    · exact hf1 x h
  · rw [List.nodup_append]
    refine ⟨hn2, hn1, ?_⟩
    intro x hx hx'
    have hx2 := hf2 x hx
    rw [hl1] at hx2
    exact hx2 (List.mem_append.mpr (Or.inl hx'))

theorem RExt.lookedup_mono {s s' : RState} (h : RExt s s') {x : Nat}
    (hx : x ∈ s.lookedup) : x ∈ s'.lookedup := by
  obtain ⟨⟨t, hl, _, _⟩, _⟩ := h
  rw [hl]
  exact List.mem_append.mpr (Or.inr hx)

/-- The aura-recording step only extends the output. -/
theorem auraStep_ext (nm : String) (spid : Nat) (e : Effect) (s : RState) :
    RExt s (auraStep nm spid e s) := by
  rw [auraStep]
  by_cases hc : (e.Aura && !(blacklist.contains nm)) = true
  · rw [if_pos hc]
    exact ⟨⟨[], rfl, by simp, List.nodup_nil⟩,
      fun k hk => (mem_auraKeys_setKey _ _ _ _).mpr (Or.inr hk)⟩
  · rw [if_neg hc]
    exact rext_refl s

theorem auraStep_lookedup (nm : String) (spid : Nat) (e : Effect) (s : RState) :
    (auraStep nm spid e s).lookedup = s.lookedup := by
  rw [auraStep]
  by_cases hc : (e.Aura && !(blacklist.contains nm)) = true
  · rw [if_pos hc]
  · rw [if_neg hc]

theorem effectsFold_ext {recur : Nat → RState → Except RErr RState}
    (Hrec : ∀ i st st', recur i st = .ok st' → RExt st st')
    {nm : String} {spid : Nat} :
    ∀ (effects : List Effect) (s s' : RState),
      effectsFold recur nm spid effects s = .ok s' → RExt s s' := by
  intro effects
  induction effects with
  | nil =>
    intro s s' h
    rw [show effectsFold recur nm spid [] s = .ok s from rfl,
      Except.ok.injEq] at h
    subst h
    exact rext_refl s
  | cons e rest ih =>
    intro s s' h
    rw [show effectsFold recur nm spid (e :: rest) s =
      (if e.AffectedSpell ≠ 0 then recur e.AffectedSpell (auraStep nm spid e s)
       else .ok (auraStep nm spid e s)).bind
        (effectsFold recur nm spid rest) from rfl] at h
    have hext1 : RExt s (auraStep nm spid e s) := auraStep_ext nm spid e s
    by_cases haf : e.AffectedSpell ≠ 0
    · rw [if_pos haf] at h
      cases hr : recur e.AffectedSpell (auraStep nm spid e s) with
      | error er => rw [hr] at h; exact absurd h (by simp [Except.bind])
      | ok s2 =>
        rw [hr] at h
        rw [show (Except.ok s2).bind (effectsFold recur nm spid rest) =
          effectsFold recur nm spid rest s2 from rfl] at h
        exact RExt.trans (RExt.trans hext1 (Hrec _ _ _ hr)) (ih _ _ h)
    · rw [if_neg haf] at h
      rw [show (Except.ok (auraStep nm spid e s)).bind
        (effectsFold recur nm spid rest) =
        effectsFold recur nm spid rest (auraStep nm spid e s) from rfl] at h
      exact RExt.trans hext1 (ih _ _ h)

theorem resolveF_ext (spells : List Spell) :
    ∀ (fuel spellID : Nat) (s s' : RState),
      getAurasForItem spells fuel spellID s = .ok s' → RExt s s' := by
  intro fuel
  induction fuel with
  | zero => intro spellID s s' h; exact Except.noConfusion h
  | succ fuel ih =>
    intro spellID s s' h
    rw [getAurasForItem] at h
    by_cases hg : (s.lookedup.contains spellID) = true
    · rw [if_pos hg, Except.ok.injEq] at h
      subst h
      exact rext_refl s
    · rw [if_neg hg] at h
      cases hd : getData spellID spells with
      | none => rw [hd] at h; exact Except.noConfusion h
      | some d =>
        rw [hd] at h
        have hmid : RExt s ⟨s.auras, spellID :: s.lookedup⟩ := by
          refine ⟨⟨[spellID], rfl, ?_, by simp⟩, fun _ hk => hk⟩
          intro x hx
          simp only [List.mem_singleton] at hx
          subst hx
          intro hmem
          exact hg (by simpa using hmem)
        exact RExt.trans hmid
          (effectsFold_ext (fun i st st' hr => ih i st st' hr) d.Effects _ _ h)

/-! ## Fuel sufficiency: the resolver terminates -/

/-- The spell ids of the store not yet in the visited set: the measure that
shrinks at every non-trivial recursive call of `getAurasForItem`. -/
def unvisited (spells : List Spell) (lu : List Nat) : Finset Nat :=
  (spells.map (·.ID)).toFinset.filter (fun i => i ∉ lu)

theorem mem_unvisited {spells : List Spell} {lu : List Nat} {i : Nat} :
    i ∈ unvisited spells lu ↔ i ∈ spells.map (·.ID) ∧ i ∉ lu := by
  simp [unvisited]

theorem unvisited_anti {spells : List Spell} {lu lu' : List Nat}
    (h : ∀ x, x ∈ lu → x ∈ lu') :
    unvisited spells lu' ⊆ unvisited spells lu := by
  intro i hi
  rw [mem_unvisited] at hi ⊢
  exact ⟨hi.1, fun hmem => hi.2 (h i hmem)⟩

theorem unvisited_cons_ssubset {spells : List Spell} {lu : List Nat}
    {spellID : Nat} (hmem : spellID ∈ spells.map (·.ID))
    (hlu : spellID ∉ lu) :
    unvisited spells (spellID :: lu) ⊂ unvisited spells lu := by
  rw [Finset.ssubset_iff_of_subset
    (unvisited_anti (fun x hx => List.mem_cons_of_mem _ hx))]
  exact ⟨spellID, mem_unvisited.mpr ⟨hmem, hlu⟩,
    fun hc => (mem_unvisited.mp hc).2 (List.mem_cons_self _ _)⟩

theorem effectsFold_no_fuelOut {recur : Nat → RState → Except RErr RState}
    {spells : List Spell} {B : Nat}
    (HrecExt : ∀ i st st', recur i st = .ok st' → RExt st st')
    (Hrec : ∀ i st, (unvisited spells st.lookedup).card < B →
      recur i st ≠ .error .fuelOut)
    {nm : String} {spid : Nat} :
    ∀ (effects : List Effect) (s : RState),
      (unvisited spells s.lookedup).card < B →
      effectsFold recur nm spid effects s ≠ .error .fuelOut := by
  intro effects
  induction effects with
  | nil =>
    intro s _ hc
    exact Except.noConfusion hc
  | cons e rest ih =>
    intro s hcard
    rw [show effectsFold recur nm spid (e :: rest) s =
      (if e.AffectedSpell ≠ 0 then recur e.AffectedSpell (auraStep nm spid e s)
       else .ok (auraStep nm spid e s)).bind
        (effectsFold recur nm spid rest) from rfl]
    have hcard1 : (unvisited spells (auraStep nm spid e s).lookedup).card < B := by
      rw [auraStep_lookedup]
      exact hcard
    by_cases haf : e.AffectedSpell ≠ 0
    · rw [if_pos haf]
      cases hr : recur e.AffectedSpell (auraStep nm spid e s) with
      | error er =>
        intro hc
        rw [show (Except.error er).bind (effectsFold recur nm spid rest) =
          (.error er : Except RErr RState) from rfl] at hc
        rw [Except.error.injEq] at hc
        subst hc
        exact Hrec _ _ hcard1 hr
      | ok s2 =>
        rw [show (Except.ok s2).bind (effectsFold recur nm spid rest) =
          effectsFold recur nm spid rest s2 from rfl]
        have hmono : unvisited spells s2.lookedup ⊆
            unvisited spells (auraStep nm spid e s).lookedup :=
          unvisited_anti (fun x hx => (HrecExt _ _ _ hr).lookedup_mono hx)
        exact ih s2 (lt_of_le_of_lt (Finset.card_le_card hmono) hcard1)
    · rw [if_neg haf]
      rw [show (Except.ok (auraStep nm spid e s)).bind
        (effectsFold recur nm spid rest) =
        effectsFold recur nm spid rest (auraStep nm spid e s) from rfl]
      exact ih _ hcard1

theorem resolveF_no_fuelOut (spells : List Spell) :
    ∀ (fuel spellID : Nat) (s : RState),
      (unvisited spells s.lookedup).card < fuel →
      getAurasForItem spells fuel spellID s ≠ .error .fuelOut := by
  intro fuel
  induction fuel with
  | zero => intro spellID s hcard; exact absurd hcard (Nat.not_lt_zero _)
  | succ fuel ih =>
    intro spellID s hcard
    rw [getAurasForItem]
    by_cases hg : (s.lookedup.contains spellID) = true
    · rw [if_pos hg]
      intro hc
      exact Except.noConfusion hc
    · rw [if_neg hg]
      cases hd : getData spellID spells with
      | none =>
        intro hc
        rw [Except.error.injEq] at hc
        exact RErr.noConfusion hc
      | some d =>
        have hid : spellID ∈ spells.map (·.ID) := by
          obtain ⟨hm, hID⟩ := getData_eq_some hd
          exact List.mem_map.mpr ⟨d, hm, hID⟩
        have hnl : spellID ∉ s.lookedup := fun hmem => hg (by simpa using hmem)
        have hlt : (unvisited spells (spellID :: s.lookedup)).card <
            (unvisited spells s.lookedup).card :=
          Finset.card_lt_card (unvisited_cons_ssubset hid hnl)
        exact effectsFold_no_fuelOut
          (fun i st st' hr => resolveF_ext spells fuel i st st' hr)
          (fun i st hc => ih i st hc)
          d.Effects ⟨s.auras, spellID :: s.lookedup⟩
          (lt_of_lt_of_le hlt (Nat.lt_succ_iff.mp hcard))

theorem resolveAuras_total (spellID : Nat) (spells : List Spell) :
    resolveAuras spellID spells ≠ .error .fuelOut := by
  apply resolveF_no_fuelOut
  have h1 : unvisited spells [] ⊆ (spells.map (·.ID)).toFinset :=
    Finset.filter_subset _ _
  calc (unvisited spells ([] : List Nat)).card
      ≤ (spells.map (·.ID)).toFinset.card := Finset.card_le_card h1
    _ ≤ (spells.map (·.ID)).length := (spells.map (·.ID)).toFinset_card_le
    _ = spells.length := List.length_map _ _
    _ < spells.length + 1 := Nat.lt_succ_self _

/-! ## Further resolver invariants -/

theorem resolveF_ok_mem {spells : List Spell} {fuel spellID : Nat}
    {s s' : RState} (h : getAurasForItem spells fuel spellID s = .ok s') :
    spellID ∈ s'.lookedup := by
  cases fuel with
  | zero => exact Except.noConfusion h
  | succ fuel =>
    rw [getAurasForItem] at h
    by_cases hg : (s.lookedup.contains spellID) = true
    · rw [if_pos hg, Except.ok.injEq] at h
      subst h
      simpa using hg
    · rw [if_neg hg] at h
      cases hd : getData spellID spells with
      | none => rw [hd] at h; exact Except.noConfusion h
      | some d =>
        rw [hd] at h
        have hext := effectsFold_ext
          (fun i st st' hr => resolveF_ext spells fuel i st st' hr)
          d.Effects _ _ h
        exact hext.lookedup_mono (List.mem_cons_self _ _)

theorem auraStep_keys_of_ne {nm : String} {spid : Nat} {e : Effect}
    {s : RState} {sB : Nat}
    (hne : spid ≠ sB ∨ blacklist.contains nm = true)
    (h : sB ∉ auraKeys s.auras) :
    sB ∉ auraKeys (auraStep nm spid e s).auras := by
  rw [auraStep]
  by_cases hc : (e.Aura && !(blacklist.contains nm)) = true
  · rw [if_pos hc]
    rcases hne with hne | hbl
    · intro hmem
      rcases (mem_auraKeys_setKey _ _ _ _).mp hmem with heq | hmem'
      · exact hne heq.symm
      · exact h hmem'
    · rw [Bool.and_eq_true, hbl] at hc
      exact absurd hc.2 (by simp)
  · rw [if_neg hc]
    exact h

theorem effectsFold_blacklist {recur : Nat → RState → Except RErr RState}
    {sB : Nat}
    (Hrec : ∀ i st st', recur i st = .ok st' →
      sB ∉ auraKeys st.auras → sB ∉ auraKeys st'.auras)
    {nm : String} {spid : Nat}
    (hnm : spid = sB → blacklist.contains nm = true) :
    ∀ (effects : List Effect) (s s' : RState),
      effectsFold recur nm spid effects s = .ok s' →
      sB ∉ auraKeys s.auras → sB ∉ auraKeys s'.auras := by
  intro effects
  induction effects with
  | nil =>
    intro s s' h hs
    rw [show effectsFold recur nm spid [] s = .ok s from rfl,
      Except.ok.injEq] at h
    subst h
    exact hs
  | cons e rest ih =>
    intro s s' h hs
    rw [show effectsFold recur nm spid (e :: rest) s =
      (if e.AffectedSpell ≠ 0 then recur e.AffectedSpell (auraStep nm spid e s)
       else .ok (auraStep nm spid e s)).bind
        (effectsFold recur nm spid rest) from rfl] at h
    have hne : spid ≠ sB ∨ blacklist.contains nm = true := by
      by_cases hsp : spid = sB
      · exact Or.inr (hnm hsp)
      · exact Or.inl hsp
    have hs1 : sB ∉ auraKeys (auraStep nm spid e s).auras :=
      auraStep_keys_of_ne hne hs
    by_cases haf : e.AffectedSpell ≠ 0
    · rw [if_pos haf] at h
      cases hr : recur e.AffectedSpell (auraStep nm spid e s) with
      | error er => rw [hr] at h; exact absurd h (by simp [Except.bind])
      | ok s2 =>
        rw [hr] at h
        exact ih _ _ h (Hrec _ _ _ hr hs1)
    · rw [if_neg haf] at h
      exact ih _ _ h hs1

theorem resolveF_blacklist {spells : List Spell} {sB : Nat} {dB : Spell}
    (hdB : getData sB spells = some dB)
    (hbl : blacklist.contains dB.Name = true) :
    ∀ (fuel spellID : Nat) (s s' : RState),
      getAurasForItem spells fuel spellID s = .ok s' →
      sB ∉ auraKeys s.auras → sB ∉ auraKeys s'.auras := by
  intro fuel
  induction fuel with
  | zero => intro spellID s s' h _; exact absurd h (fun hc => Except.noConfusion hc)
  | succ fuel ih =>
    intro spellID s s' h hs
    rw [getAurasForItem] at h
    by_cases hg : (s.lookedup.contains spellID) = true
    · rw [if_pos hg, Except.ok.injEq] at h
      subst h
      exact hs
    · rw [if_neg hg] at h
      cases hd : getData spellID spells with
      | none => rw [hd] at h; exact Except.noConfusion h
      | some d =>
        rw [hd] at h
        have hnm : spellID = sB → blacklist.contains d.Name = true := by
          intro heq
          subst heq
          rw [hd] at hdB
          rw [Option.some_inj] at hdB
          rw [hdB]
          exact hbl
        exact effectsFold_blacklist (fun i st st' hr => ih i st st' hr)
          hnm d.Effects _ _ h hs

theorem effectsFold_keys_mono {recur : Nat → RState → Except RErr RState}
    (Hrec : ∀ i st st', recur i st = .ok st' → RExt st st')
    {nm : String} {spid : Nat} {effects : List Effect} {s s' : RState}
    (h : effectsFold recur nm spid effects s = .ok s') {k : Nat}
    (hk : k ∈ auraKeys s.auras) : k ∈ auraKeys s'.auras :=
  (effectsFold_ext Hrec effects s s' h).2 k hk

theorem effectsFold_self_key {recur : Nat → RState → Except RErr RState}
    (Hrec : ∀ i st st', recur i st = .ok st' → RExt st st')
    {nm : String} {spid : Nat} (hnb : blacklist.contains nm = false) :
    ∀ (effects : List Effect) (s s' : RState),
      effectsFold recur nm spid effects s = .ok s' →
      (∃ e ∈ effects, e.Aura = true) → spid ∈ auraKeys s'.auras := by
  intro effects
  induction effects with
  | nil =>
    intro s s' _ hex
    obtain ⟨e, he, _⟩ := hex
    exact absurd he (List.not_mem_nil e)
  | cons e rest ih =>
    intro s s' h hex
    rw [show effectsFold recur nm spid (e :: rest) s =
      (if e.AffectedSpell ≠ 0 then recur e.AffectedSpell (auraStep nm spid e s)
       else .ok (auraStep nm spid e s)).bind
        (effectsFold recur nm spid rest) from rfl] at h
    by_cases hea : e.Aura = true
    · have hs1 : spid ∈ auraKeys (auraStep nm spid e s).auras := by
        rw [auraStep, if_pos (by rw [hea, hnb]; rfl)]
        exact (mem_auraKeys_setKey _ _ _ _).mpr (Or.inl rfl)
      by_cases haf : e.AffectedSpell ≠ 0
      · rw [if_pos haf] at h
        cases hr : recur e.AffectedSpell (auraStep nm spid e s) with
        | error er => rw [hr] at h; exact absurd h (by simp [Except.bind])
        | ok s2 =>
          rw [hr] at h
          exact effectsFold_keys_mono Hrec h ((Hrec _ _ _ hr).2 _ hs1)
      · rw [if_neg haf] at h
        exact effectsFold_keys_mono Hrec h hs1
    · have hex' : ∃ e' ∈ rest, e'.Aura = true := by
        obtain ⟨e', he', hea'⟩ := hex
        rcases List.mem_cons.mp he' with heq | hmem
        · subst heq; exact absurd hea' hea
        · exact ⟨e', hmem, hea'⟩
      by_cases haf : e.AffectedSpell ≠ 0
      · rw [if_pos haf] at h
        cases hr : recur e.AffectedSpell (auraStep nm spid e s) with
        | error er => rw [hr] at h; exact absurd h (by simp [Except.bind])
        | ok s2 => rw [hr] at h; exact ih _ _ h hex'
      · rw [if_neg haf] at h
        exact ih _ _ h hex'

theorem effectsFold_child_visited {recur : Nat → RState → Except RErr RState}
    (HrecExt : ∀ i st st', recur i st = .ok st' → RExt st st')
    (HrecMem : ∀ i st st', recur i st = .ok st' → i ∈ st'.lookedup)
    {nm : String} {spid : Nat} :
    ∀ (effects : List Effect) (s s' : RState),
      effectsFold recur nm spid effects s = .ok s' →
      ∀ e ∈ effects, e.AffectedSpell ≠ 0 → e.AffectedSpell ∈ s'.lookedup := by
  intro effects
  induction effects with
  | nil =>
    intro s s' _ e he
    exact absurd he (List.not_mem_nil e)
  | cons e rest ih =>
    intro s s' h e' he' haf'
    rw [show effectsFold recur nm spid (e :: rest) s =
      (if e.AffectedSpell ≠ 0 then recur e.AffectedSpell (auraStep nm spid e s)
       else .ok (auraStep nm spid e s)).bind
        (effectsFold recur nm spid rest) from rfl] at h
    rcases List.mem_cons.mp he' with heq | hmem
    · subst heq
      rw [if_pos haf'] at h
      cases hr : recur e'.AffectedSpell (auraStep nm spid e' s) with
      | error er => rw [hr] at h; exact absurd h (by simp [Except.bind])
      | ok s2 =>
        rw [hr] at h
        exact (effectsFold_ext HrecExt rest _ _ h).lookedup_mono
          (HrecMem _ _ _ hr)
    · by_cases haf : e.AffectedSpell ≠ 0
      · rw [if_pos haf] at h
        cases hr : recur e.AffectedSpell (auraStep nm spid e s) with
        | error er => rw [hr] at h; exact absurd h (by simp [Except.bind])
        | ok s2 => rw [hr] at h; exact ih _ _ h e' hmem haf'
      · rw [if_neg haf] at h
        exact ih _ _ h e' hmem haf'

/-- A spell id whose record exists, is not name-excluded and has at least one
aura-granting effect: processing it must record it in the output. -/
def AuraCond (spells : List Spell) (x : Nat) : Prop :=
  ∃ dx, getData x spells = some dx ∧ blacklist.contains dx.Name = false ∧
    ∃ e ∈ dx.Effects, e.Aura = true

theorem effectsFold_visited_aura {recur : Nat → RState → Except RErr RState}
    {spells : List Spell}
    (HrecExt : ∀ i st st', recur i st = .ok st' → RExt st st')
    (Hrec : ∀ i st st', recur i st = .ok st' → ∀ x, x ∈ st'.lookedup →
      x ∉ st.lookedup → AuraCond spells x → x ∈ auraKeys st'.auras)
    {nm : String} {spid : Nat} :
    ∀ (effects : List Effect) (s s' : RState),
      effectsFold recur nm spid effects s = .ok s' →
      ∀ x, x ∈ s'.lookedup → x ∉ s.lookedup → AuraCond spells x →
        x ∈ auraKeys s'.auras := by
  intro effects
  induction effects with
  | nil =>
    intro s s' h x hx hnx _
    rw [show effectsFold recur nm spid [] s = .ok s from rfl,
      Except.ok.injEq] at h
    subst h
    exact absurd hx hnx
  | cons e rest ih =>
    intro s s' h x hx hnx hcond
    rw [show effectsFold recur nm spid (e :: rest) s =
      (if e.AffectedSpell ≠ 0 then recur e.AffectedSpell (auraStep nm spid e s)
       else .ok (auraStep nm spid e s)).bind
        (effectsFold recur nm spid rest) from rfl] at h
    have hnx1 : x ∉ (auraStep nm spid e s).lookedup := by
      rw [auraStep_lookedup]
      exact hnx
    by_cases haf : e.AffectedSpell ≠ 0
    · rw [if_pos haf] at h
      cases hr : recur e.AffectedSpell (auraStep nm spid e s) with
      | error er => rw [hr] at h; exact absurd h (by simp [Except.bind])
      | ok s2 =>
        rw [hr] at h
        by_cases hx2 : x ∈ s2.lookedup
        · exact effectsFold_keys_mono HrecExt h
            (Hrec _ _ _ hr x hx2 hnx1 hcond)
        · exact ih _ _ h x hx hx2 hcond
    · rw [if_neg haf] at h
      exact ih _ _ h x hx hnx1 hcond

theorem resolveF_visited_aura (spells : List Spell) :
    ∀ (fuel spellID : Nat) (s s' : RState),
      getAurasForItem spells fuel spellID s = .ok s' →
      ∀ x, x ∈ s'.lookedup → x ∉ s.lookedup → AuraCond spells x →
        x ∈ auraKeys s'.auras := by
  intro fuel
  induction fuel with
  | zero => intro spellID s s' h; exact absurd h (fun hc => Except.noConfusion hc)
  | succ fuel ih =>
    intro spellID s s' h x hx hnx hcond
    rw [getAurasForItem] at h
    by_cases hg : (s.lookedup.contains spellID) = true
    · rw [if_pos hg, Except.ok.injEq] at h
      subst h
      exact absurd hx hnx
    · rw [if_neg hg] at h
      cases hd : getData spellID spells with
      | none => rw [hd] at h; exact Except.noConfusion h
      | some d =>
        rw [hd] at h
        by_cases hxs : x = spellID
        · subst hxs
          obtain ⟨dx, hdx, hnb, hex⟩ := hcond
          rw [hd, Option.some_inj] at hdx
          subst hdx
          exact effectsFold_self_key
            (fun i st st' hr => resolveF_ext spells fuel i st st' hr)
            hnb d.Effects _ _ h hex
        · have hnmid : x ∉ (⟨s.auras, spellID :: s.lookedup⟩ : RState).lookedup := by
            intro hmem
            rcases List.mem_cons.mp hmem with heq | hmem'
            · exact hxs heq
            · exact hnx hmem'
          exact effectsFold_visited_aura
            (fun i st st' hr => resolveF_ext spells fuel i st st' hr)
            (fun i st st' hr => ih i st st' hr)
            d.Effects _ _ h x hx hnmid hcond

/-! ## The per-item loop keeps only the last non-empty aura map -/

theorem getLast?_cons_or {α : Type} (a : α) (l : List α) :
    (a :: l).getLast? = (l.getLast?).or (some a) := by
  cases l <;> simp [List.getLast?]

/-- The aura map a single granted-spell iteration would contribute, `none`
when the resolution failed or found nothing. -/
def spellContribution (spells : List Spell) (sr : SpellRef) :
    Option (List (Nat × String)) :=
  match resolveAuras sr.SpellID spells with
  | .ok st => if st.auras.length ≠ 0 then some st.auras else none
  | .error _ => none

theorem processItemSpells_last (spells : List Spell) (itemID : Nat) :
    ∀ (refs : List SpellRef) (cd : List (Nat × List (Nat × String)))
      (ic : List Nat) (res : List (Nat × List (Nat × String)) × List Nat),
      processItemSpells spells itemID refs cd ic = .ok res →
      lookupKey res.1 itemID =
        ((refs.filterMap (spellContribution spells)).getLast?).or
          (lookupKey cd itemID) := by
  intro refs
  induction refs with
  | nil =>
    intro cd ic res h
    rw [show processItemSpells spells itemID [] cd ic = .ok (cd, ic) from rfl,
      Except.ok.injEq] at h
    subst h
    simp
  | cons sr rest ih =>
    intro cd ic res h
    rw [show processItemSpells spells itemID (sr :: rest) cd ic =
      (resolveAuras sr.SpellID spells).bind fun st =>
        if st.auras.length ≠ 0 then
          processItemSpells spells itemID rest (setKey cd itemID st.auras)
            (ic.erase itemID)
        else processItemSpells spells itemID rest cd ic from rfl] at h
    cases hr : resolveAuras sr.SpellID spells with
    | error er => rw [hr] at h; exact absurd h (by simp [Except.bind])
    | ok st =>
      rw [hr] at h
      by_cases hlen : st.auras.length ≠ 0
      · rw [show (Except.ok st).bind (fun st =>
          if st.auras.length ≠ 0 then
            processItemSpells spells itemID rest (setKey cd itemID st.auras)
              (ic.erase itemID)
          else processItemSpells spells itemID rest cd ic) =
          (if st.auras.length ≠ 0 then
            processItemSpells spells itemID rest (setKey cd itemID st.auras)
              (ic.erase itemID)
          else processItemSpells spells itemID rest cd ic) from rfl,
          if_pos hlen] at h
        have hihs := ih _ _ _ h
        have hhead : (sr :: rest).filterMap (spellContribution spells) =
            st.auras :: rest.filterMap (spellContribution spells) := by
          rw [List.filterMap_cons]
          rw [show spellContribution spells sr = some st.auras from by
            rw [spellContribution, hr]; exact if_pos hlen]
        rw [hhead, getLast?_cons_or, Option.or_assoc, hihs,
          lookupKey_setKey_self]
        rfl
      · rw [show (Except.ok st).bind (fun st =>
          if st.auras.length ≠ 0 then
            processItemSpells spells itemID rest (setKey cd itemID st.auras)
              (ic.erase itemID)
          else processItemSpells spells itemID rest cd ic) =
          (if st.auras.length ≠ 0 then
            processItemSpells spells itemID rest (setKey cd itemID st.auras)
              (ic.erase itemID)
          else processItemSpells spells itemID rest cd ic) from rfl,
          if_neg hlen] at h
        have hihs := ih _ _ _ h
        have hhead : (sr :: rest).filterMap (spellContribution spells) =
            rest.filterMap (spellContribution spells) := by
          rw [List.filterMap_cons]
          rw [show spellContribution spells sr = none from by
            rw [spellContribution, hr]; exact if_neg hlen]
        rw [hhead, hihs]

/-! ## Concrete stores used to witness the claims -/

/-- A store in which spell 5 references spell 7, which has no record. -/
def missingRefStore : List Spell := [⟨5, "X", [⟨false, 7⟩]⟩]

/-- Two independent aura spells granted by the same item. -/
def cexSpells : List Spell :=
  [⟨10, "A", [⟨true, 0⟩]⟩, ⟨20, "B", [⟨true, 0⟩]⟩]

/-- An item granting both spells of `cexSpells`. -/
def cexItem : Item := ⟨1, "It", [⟨10⟩, ⟨20⟩]⟩

/-- A two-spell cycle: 30 references 31 and 31 references 30. -/
def cycSpells : List Spell :=
  [⟨30, "CycA", [⟨true, 31⟩]⟩, ⟨31, "CycB", [⟨true, 30⟩]⟩]

/-- A single aura spell whose name is on the exclusion list. -/
def foodSpells : List Spell := [⟨10, "Food", [⟨true, 0⟩]⟩]

/-- An excluded spell (40, "Food") chaining into a regular aura spell 41. -/
def chainSpells : List Spell :=
  [⟨40, "Food", [⟨true, 41⟩]⟩, ⟨41, "Regen", [⟨true, 0⟩]⟩]

/-! ## Claim theorems: the aura resolver -/

/-- C1: when a spell id referenced during aura resolution has no record in
the category's spell collection, `getAurasForItem` does *not* merely warn and
skip the branch — after logging it dereferences the missing record, so a
`TypeError` escapes the resolver and aborts the run.  Evaluated at the
failing input: spell 5 references spell 7, which is absent. -/
theorem getAurasForItem_missing_reference_raises :
    resolveAuras 5 missingRefStore = .error .typeError := rfl

/-- C2 counterexample: item 1 grants spells 10 and 20; resolving 10 finds
aura 10 and resolving 20 finds aura 20, yet the item's final entry in the
category mapping is only the aura map of spell 20 — each top-level call gets
a fresh output object and `categoryData.set` overwrites the entry, so aura 10
does not appear in the item's final aura map. -/
theorem processItem_overwrite_cex :
    resolveAuras 10 cexSpells = .ok ⟨[(10, "A")], [10]⟩ ∧
    processItem cexSpells cexItem [] [1] = .ok ([(1, [(20, "B")])], []) ∧
    (10 : Nat) ∉ auraKeys [((20 : Nat), "B")] :=
  ⟨rfl, rfl, by decide⟩

/-- C2 (amended): for an item granting several spells, each top-level
`getAurasForItem` call receives a fresh empty mapping and a non-empty result
overwrites the item's entry, so the item's final entry equals the aura map of
the *last* granted spell whose resolution found any aura (and the prior entry
when no granted spell did). -/
theorem processItem_last_contribution (spells : List Spell) (item : Item)
    (cd : List (Nat × List (Nat × String))) (ic : List Nat)
    (res : List (Nat × List (Nat × String)) × List Nat)
    (h : processItem spells item cd ic = .ok res) :
    lookupKey res.1 item.ID =
      ((item.Spells.filterMap (spellContribution spells)).getLast?).or
        (lookupKey cd item.ID) :=
  processItemSpells_last spells item.ID item.Spells cd ic res h

theorem processItem_last_contribution_witness :
    processItem cexSpells cexItem [] [1] = .ok ([(1, [(20, "B")])], []) ∧
    lookupKey ([((1 : Nat), [((20 : Nat), "B")])]) 1 =
      ((cexItem.Spells.filterMap (spellContribution cexSpells)).getLast?).or
        (lookupKey [] 1) :=
  ⟨rfl, processItem_last_contribution cexSpells cexItem [] [1]
    ([(1, [(20, "B")])], []) rfl⟩

/-- C3: on spell-effect graphs containing a cycle (a spell of the store
references another and vice versa), `getAurasForItem` terminates — the fuel
supplied by `resolveAuras` never runs out — and the `lookedup` guard ensures
every spell id is processed at most once per call tree: the visited list
(one entry per processed spell, in processing order) has no duplicates. -/
theorem resolveAuras_cycle_terminates (spells : List Spell) (spellID : Nat)
    (hcyc : ∃ dA ∈ spells, ∃ dB ∈ spells, dA.ID ≠ dB.ID ∧
      (∃ e ∈ dA.Effects, e.AffectedSpell = dB.ID) ∧
      (∃ e ∈ dB.Effects, e.AffectedSpell = dA.ID)) :
    resolveAuras spellID spells ≠ .error .fuelOut ∧
      ∀ st', resolveAuras spellID spells = .ok st' → st'.lookedup.Nodup := by
  refine ⟨resolveAuras_total spellID spells, ?_⟩
  intro st' h
  obtain ⟨⟨t, hl, _, hn⟩, _⟩ :=
    resolveF_ext spells (spells.length + 1) spellID ⟨[], []⟩ st' h
  rw [hl]
  simpa using hn

theorem resolveAuras_cycle_terminates_witness :
    resolveAuras 30 cycSpells ≠ .error .fuelOut ∧
      ([31, 30] : List Nat).Nodup :=
  ⟨(resolveAuras_cycle_terminates cycSpells 30 (by decide)).1,
    (resolveAuras_cycle_terminates cycSpells 30 (by decide)).2
      ⟨[(30, "CycA"), (31, "CycB")], [31, 30]⟩ rfl⟩

/-- C4: a spell whose display name is in the fixed exclusion set is never
recorded as an aura entry in any output mapping produced by a top-level
`getAurasForItem` call, regardless of its effects' aura flags and of which
spell the resolution started from. -/
theorem resolveAuras_excluded_never_emitted (spells : List Spell)
    (s : Nat) (d : Spell) (hd : getData s spells = some d)
    (hbl : d.Name ∈ blacklist) (spellID : Nat) (st' : RState)
    (h : resolveAuras spellID spells = .ok st') :
    s ∉ auraKeys st'.auras :=
  resolveF_blacklist hd (by simpa using hbl) (spells.length + 1) spellID
    ⟨[], []⟩ st' h (by simp [auraKeys])

theorem resolveAuras_excluded_never_emitted_witness :
    (10 : Nat) ∉ auraKeys ((⟨[], [10]⟩ : RState).auras) :=
  resolveAuras_excluded_never_emitted foodSpells 10 ⟨10, "Food", [⟨true, 0⟩]⟩
    rfl (by decide) 10 ⟨[], [10]⟩ rfl

/-- C10: the exclusion filter does not prune traversal — when the resolution
completes, every `AffectedSpell` reference of an excluded spell's effects has
been recursed into, so an aura spell chained through the excluded spell still
appears in the output mapping. -/
theorem resolveAuras_recurses_through_excluded (spells : List Spell)
    (s t : Nat) (d dt : Spell)
    (hd : getData s spells = some d) (hbl : d.Name ∈ blacklist)
    (e : Effect) (he : e ∈ d.Effects) (haf : e.AffectedSpell = t)
    (ht0 : t ≠ 0) (hdt : getData t spells = some dt)
    (hnb : dt.Name ∉ blacklist) (hex : ∃ et ∈ dt.Effects, et.Aura = true)
    (st' : RState) (h : resolveAuras s spells = .ok st') :
    t ∈ auraKeys st'.auras := by
  have horig : getAurasForItem spells (spells.length + 1) s ⟨[], []⟩ = .ok st' := h
  have h2 := horig
  rw [getAurasForItem, if_neg (by simp), hd] at h2
  have hvis : t ∈ st'.lookedup := by
    have := effectsFold_child_visited
      (fun i st st' hr => resolveF_ext spells spells.length i st st' hr)
      (fun i st st' hr => resolveF_ok_mem hr)
      d.Effects _ _ h2 e he (by rw [haf]; exact ht0)
    rw [haf] at this
    exact this
  exact resolveF_visited_aura spells (spells.length + 1) s ⟨[], []⟩ st' horig
    t hvis (by simp) ⟨dt, hdt, by simpa using hnb, hex⟩

theorem resolveAuras_recurses_through_excluded_witness :
    (41 : Nat) ∈ auraKeys ((⟨[(41, "Regen")], [41, 40]⟩ : RState).auras) :=
  resolveAuras_recurses_through_excluded chainSpells 40 41
    ⟨40, "Food", [⟨true, 41⟩]⟩ ⟨41, "Regen", [⟨true, 0⟩]⟩ rfl (by decide)
    ⟨true, 41⟩ (by decide) rfl (by decide) rfl (by decide) (by decide)
    ⟨[(41, "Regen")], [41, 40]⟩ rfl

/-! ## Item cache updater: basic lemmas -/

theorem mem_addID {cache : List Nat} {id x : Nat} :
    x ∈ addID cache id ↔ x ∈ cache ∨ x = id := by
  rw [addID]
  by_cases hc : (cache.contains id) = true
  · rw [if_pos hc]
    constructor
    · exact Or.inl
    · intro h
      rcases h with h | h
      · exact h
      · subst h; simpa using hc
  · rw [if_neg hc]
    simp

theorem addID_nodup {cache : List Nat} (h : cache.Nodup) (id : Nat) :
    (addID cache id).Nodup := by
  rw [addID]
  by_cases hc : (cache.contains id) = true
  · rw [if_pos hc]; exact h
  · rw [if_neg hc]
    rw [List.nodup_append]
    refine ⟨h, List.nodup_singleton id, ?_⟩
    intro x hx hx'
    rw [List.mem_singleton] at hx'
    subst hx'
    exact hc (by simpa using hx)

theorem mem_foldl_addID : ∀ (l acc : List Nat) (x : Nat),
    x ∈ l.foldl addID acc ↔ x ∈ acc ∨ x ∈ l := by
  intro l
  induction l with
  | nil => intro acc x; simp
  | cons a rest ih =>
    intro acc x
    rw [List.foldl_cons, ih, mem_addID]
    simp
    tauto

theorem mem_cacheOfIDs {l : List Nat} {x : Nat} :
    x ∈ cacheOfIDs l ↔ x ∈ l := by
  rw [cacheOfIDs, mem_foldl_addID]
  simp

theorem foldl_addID_nodup : ∀ (l acc : List Nat), acc.Nodup →
    (l.foldl addID acc).Nodup := by
  intro l
  induction l with
  | nil => intro acc h; exact h
  | cons a rest ih => intro acc h; exact ih _ (addID_nodup h a)

theorem cacheOfIDs_nodup (l : List Nat) : (cacheOfIDs l).Nodup :=
  foldl_addID_nodup l [] List.nodup_nil

theorem foldl_addID_of_fresh : ∀ (l acc : List Nat), l.Nodup →
    (∀ x ∈ l, x ∉ acc) → l.foldl addID acc = acc ++ l := by
  intro l
  induction l with
  | nil => intro acc _ _; simp
  | cons a rest ih =>
    intro acc hnd hfr
    rw [List.foldl_cons]
    have ha : addID acc a = acc ++ [a] := by
      rw [addID, if_neg]
      intro hc
      exact hfr a (List.mem_cons_self _ _) (by simpa using hc)
    rw [ha, ih (acc ++ [a]) (List.Nodup.of_cons hnd)]
    · simp
    · intro x hx hmem
      rcases List.mem_append.mp hmem with h | h
      · exact hfr x (List.mem_cons_of_mem a hx) h
      · rw [List.mem_singleton] at h
        subst h
        exact (List.nodup_cons.mp hnd).1 hx

theorem cacheOfIDs_of_nodup {l : List Nat} (h : l.Nodup) : cacheOfIDs l = l := by
  rw [cacheOfIDs, foldl_addID_of_fresh l [] h (fun x _ hx => List.not_mem_nil x hx)]
  simp

theorem fetchLoop_cons_mem {fetch : Nat → Option Item} {id : Nat}
    {rest : List Nat} {items : List Item} {cache : List Nat}
    (hc : (cache.contains id) = true) :
    fetchLoop fetch (id :: rest) items cache = fetchLoop fetch rest items cache := by
  rw [fetchLoop, if_pos hc]

theorem fetchLoop_cons_some {fetch : Nat → Option Item} {id : Nat}
    {rest : List Nat} {items : List Item} {cache : List Nat} {item : Item}
    (hc : ¬ (cache.contains id) = true) (hf : fetch id = some item) :
    fetchLoop fetch (id :: rest) items cache =
      fetchLoop fetch rest (items ++ [item]) (cache ++ [id]) := by
  rw [fetchLoop, if_neg hc, hf]

theorem fetchLoop_cons_none {fetch : Nat → Option Item} {id : Nat}
    {rest : List Nat} {items : List Item} {cache : List Nat}
    (hc : ¬ (cache.contains id) = true) (hf : fetch id = none) :
    fetchLoop fetch (id :: rest) items cache = fetchLoop fetch rest items cache := by
  rw [fetchLoop, if_neg hc, hf]

theorem fetchLoop_delta (fetch : Nat → Option Item) :
    ∀ (info : List Nat) (items : List Item) (cache : List Nat),
      ∃ its ids,
        fetchLoop fetch info items cache = (items ++ its, cache ++ ids) ∧
        its.length = ids.length ∧
        (∀ x ∈ ids, x ∉ cache ∧ (fetch x).isSome = true) := by
  intro info
  induction info with
  | nil =>
    intro items cache
    exact ⟨[], [], by simp [fetchLoop], rfl, by simp⟩
  | cons id rest ih =>
    intro items cache
    by_cases hc : (cache.contains id) = true
    · obtain ⟨its, ids, heq, hlen, hfr⟩ := ih items cache
      exact ⟨its, ids, by rw [fetchLoop_cons_mem hc]; exact heq, hlen, hfr⟩
    · cases hf : fetch id with
      | some item =>
        obtain ⟨its, ids, heq, hlen, hfr⟩ := ih (items ++ [item]) (cache ++ [id])
        refine ⟨item :: its, id :: ids, ?_, by simp [hlen], ?_⟩
        · rw [fetchLoop_cons_some hc hf, heq]
          simp
        · intro x hx
          rcases List.mem_cons.mp hx with hx | hx
          · subst hx
            exact ⟨fun hmem => hc (by simpa using hmem), by rw [hf]; rfl⟩
          · obtain ⟨hnx, hsome⟩ := hfr x hx
            exact ⟨fun hmem => hnx (List.mem_append.mpr (Or.inl hmem)), hsome⟩
      | none =>
        obtain ⟨its, ids, heq, hlen, hfr⟩ := ih items cache
        exact ⟨its, ids, by rw [fetchLoop_cons_none hc hf]; exact heq, hlen, hfr⟩

theorem fetchLoop_nodup (fetch : Nat → Option Item) :
    ∀ (info : List Nat) (items : List Item) (cache : List Nat),
      cache.Nodup → (fetchLoop fetch info items cache).2.Nodup := by
  intro info
  induction info with
  | nil => intro items cache h; exact h
  | cons id rest ih =>
    intro items cache h
    by_cases hc : (cache.contains id) = true
    · rw [fetchLoop_cons_mem hc]; exact ih items cache h
    · cases hf : fetch id with
      | some item =>
        rw [fetchLoop_cons_some hc hf]
        refine ih _ _ ?_
        rw [List.nodup_append]
        refine ⟨h, List.nodup_singleton id, ?_⟩
        intro x hx hx'
        rw [List.mem_singleton] at hx'
        subst hx'
        exact hc (by simpa using hx)
      | none => rw [fetchLoop_cons_none hc hf]; exact ih items cache h

theorem fetchLoop_mem (fetch : Nat → Option Item) :
    ∀ (info : List Nat) (items : List Item) (cache : List Nat) (x : Nat),
      x ∈ (fetchLoop fetch info items cache).2 ↔
        x ∈ cache ∨ (x ∈ info ∧ (fetch x).isSome = true) := by
  intro info
  induction info with
  | nil => intro items cache x; simp [fetchLoop]
  | cons id rest ih =>
    intro items cache x
    by_cases hc : (cache.contains id) = true
    · rw [fetchLoop_cons_mem hc, ih]
      have hid : id ∈ cache := by simpa using hc
      constructor
      · intro h
        rcases h with h | ⟨h1, h2⟩
        · exact Or.inl h
        · exact Or.inr ⟨List.mem_cons_of_mem id h1, h2⟩
      · intro h
        rcases h with h | ⟨h1, h2⟩
        · exact Or.inl h
        · rcases List.mem_cons.mp h1 with hx | hx
          · subst hx; exact Or.inl hid
          · exact Or.inr ⟨hx, h2⟩
    · cases hf : fetch id with
      | some item =>
        rw [fetchLoop_cons_some hc hf, ih]
        constructor
        · intro h
          rcases h with h | ⟨h1, h2⟩
          · rcases List.mem_append.mp h with h | h
            · exact Or.inl h
            · rw [List.mem_singleton] at h
              subst h
              exact Or.inr ⟨List.mem_cons_self _ _, by rw [hf]; rfl⟩
          · exact Or.inr ⟨List.mem_cons_of_mem id h1, h2⟩
        · intro h
          rcases h with h | ⟨h1, h2⟩
          · exact Or.inl (List.mem_append.mpr (Or.inl h))
          · rcases List.mem_cons.mp h1 with hx | hx
            · subst hx
              exact Or.inl (List.mem_append.mpr (Or.inr (List.mem_singleton.mpr rfl)))
            · exact Or.inr ⟨hx, h2⟩
      | none =>
        rw [fetchLoop_cons_none hc hf, ih]
        constructor
        · intro h
          rcases h with h | ⟨h1, h2⟩
          · exact Or.inl h
          · exact Or.inr ⟨List.mem_cons_of_mem id h1, h2⟩
        · intro h
          rcases h with h | ⟨h1, h2⟩
          · exact Or.inl h
          · rcases List.mem_cons.mp h1 with hx | hx
            · subst hx
              rw [hf] at h2
              exact absurd h2 (by simp)
            · exact Or.inr ⟨hx, h2⟩

theorem fetchLoop_tracks (fetch : Nat → Option Item)
    (hfetch : ∀ i it, fetch i = some it → it.ID = i) :
    ∀ (info : List Nat) (items : List Item) (cache : List Nat),
      cache = items.map (·.ID) →
      (fetchLoop fetch info items cache).2 =
        (fetchLoop fetch info items cache).1.map (·.ID) := by
  intro info
  induction info with
  | nil => intro items cache h; exact h
  | cons id rest ih =>
    intro items cache h
    by_cases hc : (cache.contains id) = true
    · rw [fetchLoop_cons_mem hc]; exact ih items cache h
    · cases hf : fetch id with
      | some item =>
        rw [fetchLoop_cons_some hc hf]
        refine ih _ _ ?_
        rw [h, List.map_append]
        rw [show ([item].map (·.ID)) = [id] from by
          simp [hfetch id item hf]]
      | none => rw [fetchLoop_cons_none hc hf]; exact ih items cache h

/-! ## updateItemsCache unfolding and sorting facts -/

instance : IsTotal Item (fun a b => a.ID ≤ b.ID) :=
  ⟨fun a b => Nat.le_total a.ID b.ID⟩

instance : IsTrans Item (fun a b => a.ID ≤ b.ID) :=
  ⟨fun _ _ _ hab hbc => Nat.le_trans hab hbc⟩

instance : IsTotal Spell (fun a b => a.ID ≤ b.ID) :=
  ⟨fun a b => Nat.le_total a.ID b.ID⟩

instance : IsTrans Spell (fun a b => a.ID ≤ b.ID) :=
  ⟨fun _ _ _ hab hbc => Nat.le_trans hab hbc⟩

theorem updateItemsCache_eq (fetch : Nat → Option Item) (items0 : List Item)
    (info : List Nat) :
    updateItemsCache fetch items0 info =
      if (fetchLoop fetch info items0 (cacheOfIDs (items0.map (·.ID)))).2.length ≠
          (cacheOfIDs (items0.map (·.ID))).length then
        (sortItems (fetchLoop fetch info items0 (cacheOfIDs (items0.map (·.ID)))).1,
         (fetchLoop fetch info items0 (cacheOfIDs (items0.map (·.ID)))).2,
         some (sortItems (fetchLoop fetch info items0 (cacheOfIDs (items0.map (·.ID)))).1))
      else
        ((fetchLoop fetch info items0 (cacheOfIDs (items0.map (·.ID)))).1,
         (fetchLoop fetch info items0 (cacheOfIDs (items0.map (·.ID)))).2,
         none) := rfl

theorem updateItemsCache_cache (fetch : Nat → Option Item) (items0 : List Item)
    (info : List Nat) :
    (updateItemsCache fetch items0 info).2.1 =
      (fetchLoop fetch info items0 (cacheOfIDs (items0.map (·.ID)))).2 := by
  rw [updateItemsCache_eq]
  by_cases hgrow : (fetchLoop fetch info items0 (cacheOfIDs (items0.map (·.ID)))).2.length ≠
      (cacheOfIDs (items0.map (·.ID))).length
  · rw [if_pos hgrow]
  · rw [if_neg hgrow]

/-- A strict sortedness consequence: sorting a collection whose ids are
pairwise distinct yields a strictly increasing id sequence. -/
theorem sortItems_strict {l : List Item} (h : (l.map (·.ID)).Nodup) :
    (sortItems l).Pairwise (fun a b => a.ID < b.ID) := by
  have hperm : (sortItems l).Perm l := List.perm_insertionSort _ l
  have hnd : ((sortItems l).map (·.ID)).Nodup :=
    ((hperm.map (·.ID)).nodup_iff).mpr h
  have hne : (sortItems l).Pairwise (fun a b => a.ID ≠ b.ID) := by
    rw [List.Nodup, List.pairwise_map] at hnd
    exact hnd
  have hle : (sortItems l).Pairwise (fun a b => a.ID ≤ b.ID) :=
    List.sorted_insertionSort _ l
  exact (hle.and hne).imp (fun h => lt_of_le_of_ne h.1 h.2)

theorem fetchLoop_skip_failed (fetch : Nat → Option Item) {i : Nat}
    (hfail : fetch i = none) :
    ∀ (info1 info2 : List Nat) (items : List Item) (cache : List Nat),
      fetchLoop fetch (info1 ++ i :: info2) items cache =
        fetchLoop fetch (info1 ++ info2) items cache := by
  intro info1
  induction info1 with
  | nil =>
    intro info2 items cache
    simp only [List.nil_append]
    by_cases hc : (cache.contains i) = true
    · rw [fetchLoop_cons_mem hc]
    · rw [fetchLoop_cons_none hc hfail]
  | cons a rest ih =>
    intro info2 items cache
    simp only [List.cons_append]
    by_cases hc : (cache.contains a) = true
    · rw [fetchLoop_cons_mem hc, fetchLoop_cons_mem hc, ih]
    · cases hf : fetch a with
      | some item =>
        rw [fetchLoop_cons_some hc hf, fetchLoop_cons_some hc hf, ih]
      | none => rw [fetchLoop_cons_none hc hf, fetchLoop_cons_none hc hf, ih]

/-! ## Spell graph expander invariants -/

/-- One expander step only appends: the collection and the id-set grow by
matching fresh blocks, and the ids added are exactly the fetch attempts that
succeeded (in order). -/
def ExpInv (fetchS : Nat → Option Spell) (sp : List Spell) (c : List Nat)
    (sp' : List Spell) (c' : List Nat) (trNew : List Nat) : Prop :=
  ∃ ts us, sp' = sp ++ ts ∧ c' = c ++ us ∧ ts.length = us.length ∧
    (∀ x ∈ us, x ∉ c ∧ (fetchS x).isSome = true) ∧ us.Nodup ∧
    trNew.filter (fun i => (fetchS i).isSome) = us

theorem expInv_refl (fetchS : Nat → Option Spell) (sp : List Spell)
    (c : List Nat) : ExpInv fetchS sp c sp c [] :=
  ⟨[], [], by simp, by simp, rfl, by simp, List.nodup_nil, rfl⟩

theorem ExpInv.compose {fetchS : Nat → Option Spell}
    {sp : List Spell} {c : List Nat} {sp1 : List Spell} {c1 : List Nat}
    {t1 : List Nat} {sp2 : List Spell} {c2 : List Nat} {t2 : List Nat}
    (h1 : ExpInv fetchS sp c sp1 c1 t1) (h2 : ExpInv fetchS sp1 c1 sp2 c2 t2) :
    ExpInv fetchS sp c sp2 c2 (t1 ++ t2) := by
  obtain ⟨ts1, us1, hsp1, hc1, hlen1, hfr1, hnd1, htr1⟩ := h1
  obtain ⟨ts2, us2, hsp2, hc2, hlen2, hfr2, hnd2, htr2⟩ := h2
  refine ⟨ts1 ++ ts2, us1 ++ us2, ?_, ?_, ?_, ?_, ?_, ?_⟩
  · rw [hsp2, hsp1, List.append_assoc]
  · rw [hc2, hc1, List.append_assoc]
  · simp [hlen1, hlen2]
  · intro x hx
    rcases List.mem_append.mp hx with hx | hx
    · exact hfr1 x hx
    · obtain ⟨hnx, hsome⟩ := hfr2 x hx
      rw [hc1] at hnx
      exact ⟨fun hmem => hnx (List.mem_append.mpr (Or.inl hmem)), hsome⟩
  · rw [List.nodup_append]
    refine ⟨hnd1, hnd2, ?_⟩
    intro x hx hx'
    obtain ⟨hnx, _⟩ := hfr2 x hx'
    rw [hc1] at hnx
    exact hnx (List.mem_append.mpr (Or.inr hx))
  · rw [List.filter_append, htr1, htr2]

theorem ExpInv.cache_mono {fetchS : Nat → Option Spell}
    {sp : List Spell} {c : List Nat} {sp' : List Spell} {c' : List Nat}
    {trNew : List Nat} (h : ExpInv fetchS sp c sp' c' trNew) {x : Nat}
    (hx : x ∈ c) : x ∈ c' := by
  obtain ⟨ts, us, _, hc, _, _, _, _⟩ := h
  rw [hc]
  exact List.mem_append.mpr (Or.inl hx)

theorem relatedFold_inv {fetchS : Nat → Option Spell}
    {recur : Nat → List Spell → List Nat →
      Option (List Spell × List Nat × List Nat)}
    (Hrec : ∀ i sp c r, recur i sp c = some r →
      ExpInv fetchS sp c r.1 r.2.1 r.2.2) :
    ∀ (effects : List Effect) (sp : List Spell) (c : List Nat) (tr : List Nat)
      (r : List Spell × List Nat × List Nat),
      relatedFold recur effects sp c tr = some r →
      ∃ trNew, r.2.2 = tr ++ trNew ∧ ExpInv fetchS sp c r.1 r.2.1 trNew := by
  intro effects
  induction effects with
  | nil =>
    intro sp c tr r h
    rw [show relatedFold recur [] sp c tr = some (sp, c, tr) from rfl,
      Option.some_inj] at h
    subst h
    exact ⟨[], by simp, expInv_refl fetchS sp c⟩
  | cons e rest ih =>
    intro sp c tr r h
    rw [show relatedFold recur (e :: rest) sp c tr =
      (if e.AffectedSpell ≠ 0 then
        (recur e.AffectedSpell sp c).bind fun r1 =>
          relatedFold recur rest r1.1 r1.2.1 (tr ++ r1.2.2)
       else relatedFold recur rest sp c tr) from rfl] at h
    by_cases haf : e.AffectedSpell ≠ 0
    · rw [if_pos haf] at h
      cases hr : recur e.AffectedSpell sp c with
      | none => rw [hr] at h; exact absurd h (by simp)
      | some r1 =>
        rw [hr] at h
        rw [show (some r1).bind (fun r1 =>
          relatedFold recur rest r1.1 r1.2.1 (tr ++ r1.2.2)) =
          relatedFold recur rest r1.1 r1.2.1 (tr ++ r1.2.2) from rfl] at h
        obtain ⟨trNew2, htr2, hinv2⟩ := ih _ _ _ _ h
        refine ⟨r1.2.2 ++ trNew2, ?_, (Hrec _ _ _ _ hr).compose hinv2⟩
        rw [htr2, List.append_assoc]
    · rw [if_neg haf] at h
      exact ih _ _ _ _ h

theorem cacheRelatedSpells_inv (fetchS : Nat → Option Spell) :
    ∀ (fuel spellID : Nat) (spells : List Spell) (cache : List Nat)
      (r : List Spell × List Nat × List Nat),
      cacheRelatedSpells fetchS fuel spellID spells cache = some r →
      ExpInv fetchS spells cache r.1 r.2.1 r.2.2 := by
  intro fuel
  induction fuel with
  | zero => intro spellID spells cache r h; exact Option.noConfusion h
  | succ fuel ih =>
    intro spellID spells cache r h
    rw [cacheRelatedSpells] at h
    by_cases hg : (cache.contains spellID) = true
    · rw [if_pos hg, Option.some_inj] at h
      subst h
      exact expInv_refl fetchS spells cache
    · rw [if_neg hg] at h
      cases hf : fetchS spellID with
      | none =>
        rw [hf, Option.some_inj] at h
        subst h
        refine ⟨[], [], by simp, by simp, rfl, by simp, List.nodup_nil, ?_⟩
        simp [List.filter, hf]
      | some spell =>
        rw [hf] at h
        obtain ⟨trNew, htr, hinv⟩ := relatedFold_inv
          (fun i sp c r' hr' => ih i sp c r' hr') spell.Effects _ _ _ _ h
        have hstep : ExpInv fetchS spells cache (spells ++ [spell])
            (cache ++ [spellID]) [spellID] := by
          refine ⟨[spell], [spellID], rfl, rfl, rfl, ?_, List.nodup_singleton _, ?_⟩
          · intro x hx
            rw [List.mem_singleton] at hx
            subst hx
            exact ⟨fun hmem => hg (by simpa using hmem), by rw [hf]; rfl⟩
          · simp [List.filter, hf]
        have hall := hstep.compose hinv
        rw [← htr] at hall
        exact hall

/-! ## Expander termination on finite fetch domains -/

/-- The fetchable ids not yet cached: the measure of the expander. -/
def unvisitedD (D : List Nat) (c : List Nat) : Finset Nat :=
  D.toFinset.filter (fun i => i ∉ c)

theorem mem_unvisitedD {D c : List Nat} {i : Nat} :
    i ∈ unvisitedD D c ↔ i ∈ D ∧ i ∉ c := by
  simp [unvisitedD]

theorem unvisitedD_anti {D c c' : List Nat} (h : ∀ x, x ∈ c → x ∈ c') :
    unvisitedD D c' ⊆ unvisitedD D c := by
  intro i hi
  rw [mem_unvisitedD] at hi ⊢
  exact ⟨hi.1, fun hmem => hi.2 (h i hmem)⟩

theorem unvisitedD_append_ssubset {D c : List Nat} {i : Nat}
    (hD : i ∈ D) (hc : i ∉ c) :
    unvisitedD D (c ++ [i]) ⊂ unvisitedD D c := by
  rw [Finset.ssubset_iff_of_subset
    (unvisitedD_anti (fun x hx => List.mem_append.mpr (Or.inl hx)))]
  refine ⟨i, mem_unvisitedD.mpr ⟨hD, hc⟩, fun hmem => ?_⟩
  exact (mem_unvisitedD.mp hmem).2 (List.mem_append.mpr (Or.inr (List.mem_singleton.mpr rfl)))

theorem unvisitedD_card_le (D c : List Nat) :
    (unvisitedD D c).card ≤ D.length :=
  le_trans (Finset.card_le_card (Finset.filter_subset _ _)) D.toFinset_card_le

theorem relatedFold_total {fetchS : Nat → Option Spell}
    {recur : Nat → List Spell → List Nat →
      Option (List Spell × List Nat × List Nat)}
    {D : List Nat} {B : Nat}
    (HrecInv : ∀ i sp c r, recur i sp c = some r →
      ExpInv fetchS sp c r.1 r.2.1 r.2.2)
    (Hrec : ∀ i sp c, (unvisitedD D c).card < B → recur i sp c ≠ none) :
    ∀ (effects : List Effect) (sp : List Spell) (c : List Nat) (tr : List Nat),
      (unvisitedD D c).card < B →
      relatedFold recur effects sp c tr ≠ none := by
  intro effects
  induction effects with
  | nil => intro sp c tr _ h; exact Option.noConfusion h
  | cons e rest ih =>
    intro sp c tr hcard
    rw [show relatedFold recur (e :: rest) sp c tr =
      (if e.AffectedSpell ≠ 0 then
        (recur e.AffectedSpell sp c).bind fun r1 =>
          relatedFold recur rest r1.1 r1.2.1 (tr ++ r1.2.2)
       else relatedFold recur rest sp c tr) from rfl]
    by_cases haf : e.AffectedSpell ≠ 0
    · rw [if_pos haf]
      cases hr : recur e.AffectedSpell sp c with
      | none => exact absurd hr (Hrec _ _ _ hcard)
      | some r1 =>
        have hcard1 : (unvisitedD D r1.2.1).card < B := by
          refine lt_of_le_of_lt (Finset.card_le_card (unvisitedD_anti ?_)) hcard
          exact fun x hx => (HrecInv _ _ _ _ hr).cache_mono hx
        intro hc
        rw [show (some r1).bind (fun r1 =>
          relatedFold recur rest r1.1 r1.2.1 (tr ++ r1.2.2)) =
          relatedFold recur rest r1.1 r1.2.1 (tr ++ r1.2.2) from rfl] at hc
        exact ih _ _ _ hcard1 hc
    · rw [if_neg haf]
      exact ih _ _ _ hcard

theorem cacheRelatedSpells_total (fetchS : Nat → Option Spell) (D : List Nat)
    (hD : ∀ i, (fetchS i).isSome = true → i ∈ D) :
    ∀ (fuel spellID : Nat) (spells : List Spell) (cache : List Nat),
      (unvisitedD D cache).card < fuel →
      cacheRelatedSpells fetchS fuel spellID spells cache ≠ none := by
  intro fuel
  induction fuel with
  | zero => intro spellID spells cache hcard; exact absurd hcard (Nat.not_lt_zero _)
  | succ fuel ih =>
    intro spellID spells cache hcard
    rw [cacheRelatedSpells]
    by_cases hg : (cache.contains spellID) = true
    · rw [if_pos hg]
      intro hc
      exact Option.noConfusion hc
    · rw [if_neg hg]
      cases hf : fetchS spellID with
      | none => intro hc; exact Option.noConfusion hc
      | some spell =>
        have hmemD : spellID ∈ D := hD spellID (by rw [hf]; rfl)
        have hnc : spellID ∉ cache := fun hmem => hg (by simpa using hmem)
        have hlt : (unvisitedD D (cache ++ [spellID])).card <
            (unvisitedD D cache).card :=
          Finset.card_lt_card (unvisitedD_append_ssubset hmemD hnc)
        exact relatedFold_total
          (fun i sp c r' hr' => cacheRelatedSpells_inv fetchS fuel i sp c r' hr')
          (fun i sp c hc => ih i sp c hc)
          spell.Effects (spells ++ [spell]) (cache ++ [spellID]) [spellID]
          (lt_of_lt_of_le hlt (Nat.lt_succ_iff.mp hcard))

theorem cacheSpellsList_inv (fetchS : Nat → Option Spell) (fuel : Nat) :
    ∀ (ids : List Nat) (sp : List Spell) (c : List Nat)
      (r : List Spell × List Nat × List Nat),
      cacheSpellsList fetchS fuel ids sp c = some r →
      ExpInv fetchS sp c r.1 r.2.1 r.2.2 := by
  intro ids
  induction ids with
  | nil =>
    intro sp c r h
    rw [show cacheSpellsList fetchS fuel [] sp c = some (sp, c, []) from rfl,
      Option.some_inj] at h
    subst h
    exact expInv_refl fetchS sp c
  | cons id rest ih =>
    intro sp c r h
    rw [show cacheSpellsList fetchS fuel (id :: rest) sp c =
      (cacheRelatedSpells fetchS fuel id sp c).bind fun r1 =>
        (cacheSpellsList fetchS fuel rest r1.1 r1.2.1).bind fun r2 =>
          some (r2.1, r2.2.1, r1.2.2 ++ r2.2.2) from rfl] at h
    cases hr1 : cacheRelatedSpells fetchS fuel id sp c with
    | none => rw [hr1] at h; exact absurd h (by simp)
    | some r1 =>
      rw [hr1] at h
      cases hr2 : cacheSpellsList fetchS fuel rest r1.1 r1.2.1 with
      | none =>
        rw [show (some r1).bind (fun r1 =>
          (cacheSpellsList fetchS fuel rest r1.1 r1.2.1).bind fun r2 =>
            some (r2.1, r2.2.1, r1.2.2 ++ r2.2.2)) =
          (cacheSpellsList fetchS fuel rest r1.1 r1.2.1).bind (fun r2 =>
            some (r2.1, r2.2.1, r1.2.2 ++ r2.2.2)) from rfl, hr2] at h
        exact absurd h (by simp)
      | some r2 =>
        rw [show (some r1).bind (fun r1 =>
          (cacheSpellsList fetchS fuel rest r1.1 r1.2.1).bind fun r2 =>
            some (r2.1, r2.2.1, r1.2.2 ++ r2.2.2)) =
          (cacheSpellsList fetchS fuel rest r1.1 r1.2.1).bind (fun r2 =>
            some (r2.1, r2.2.1, r1.2.2 ++ r2.2.2)) from rfl, hr2,
          show (some r2).bind (fun r2 =>
            some (r2.1, r2.2.1, r1.2.2 ++ r2.2.2)) =
            some (r2.1, r2.2.1, r1.2.2 ++ r2.2.2) from rfl,
          Option.some_inj] at h
        subst h
        exact (cacheRelatedSpells_inv fetchS fuel id sp c r1 hr1).compose
          (ih _ _ _ hr2)

theorem cacheSpellsList_total (fetchS : Nat → Option Spell) (D : List Nat)
    (hD : ∀ i, (fetchS i).isSome = true → i ∈ D) {fuel : Nat}
    (hfuel : D.length < fuel) :
    ∀ (ids : List Nat) (sp : List Spell) (c : List Nat),
      cacheSpellsList fetchS fuel ids sp c ≠ none := by
  intro ids
  induction ids with
  | nil => intro sp c h; exact Option.noConfusion h
  | cons id rest ih =>
    intro sp c
    rw [show cacheSpellsList fetchS fuel (id :: rest) sp c =
      (cacheRelatedSpells fetchS fuel id sp c).bind fun r1 =>
        (cacheSpellsList fetchS fuel rest r1.1 r1.2.1).bind fun r2 =>
          some (r2.1, r2.2.1, r1.2.2 ++ r2.2.2) from rfl]
    cases hr1 : cacheRelatedSpells fetchS fuel id sp c with
    | none =>
      exact absurd hr1 (cacheRelatedSpells_total fetchS D hD fuel id sp c
        (lt_of_le_of_lt (unvisitedD_card_le D c) hfuel))
    | some r1 =>
      cases hr2 : cacheSpellsList fetchS fuel rest r1.1 r1.2.1 with
      | none => exact absurd hr2 (ih _ _)
      | some r2 =>
        intro hc
        rw [show (some r1).bind (fun r1 =>
          (cacheSpellsList fetchS fuel rest r1.1 r1.2.1).bind fun r2 =>
            some (r2.1, r2.2.1, r1.2.2 ++ r2.2.2)) =
          (cacheSpellsList fetchS fuel rest r1.1 r1.2.1).bind (fun r2 =>
            some (r2.1, r2.2.1, r1.2.2 ++ r2.2.2)) from rfl, hr2] at hc
        exact Option.noConfusion hc

theorem updateSpellsCache_eq (fetchS : Nat → Option Spell) (fuel : Nat)
    (spells0 : List Spell) (items : List Item) :
    updateSpellsCache fetchS fuel spells0 items =
      (cacheSpellsList fetchS fuel
        (items.flatMap fun it => it.Spells.map (·.SpellID)) spells0
        (cacheOfIDs (spells0.map (·.ID)))).bind fun r =>
        if r.2.1.length ≠ (cacheOfIDs (spells0.map (·.ID))).length then
          some ((sortSpells r.1, r.2.1), some (sortSpells r.1), r.2.2)
        else some ((r.1, r.2.1), none, r.2.2) := rfl

/-! ## Concrete caches and fetchers used to witness the claims -/

/-- One previously cached item with id 1. -/
def items0c : List Item := [⟨1, "a", []⟩]

/-- The category's item-id list: 1 is cached, 2 fetches fine, 3 fails. -/
def infoc : List Nat := [1, 2, 3]

/-- An item fetcher that only knows item 2. -/
def fetchIc : Nat → Option Item :=
  fun i => if i = 2 then some ⟨2, "b", []⟩ else none

theorem fetchIc_id : ∀ (i : Nat) (it : Item), fetchIc i = some it → it.ID = i := by
  intro i it h
  rw [fetchIc] at h
  by_cases h2 : i = 2
  · rw [if_pos h2, Option.some_inj] at h
    subst h
    rw [h2]
  · rw [if_neg h2] at h
    exact Option.noConfusion h

/-- A spell fetcher with a two-spell cycle: 30 ↔ 31. -/
def cycFetch : Nat → Option Spell :=
  fun i =>
    if i = 30 then some ⟨30, "CycA", [⟨true, 31⟩]⟩
    else if i = 31 then some ⟨31, "CycB", [⟨true, 30⟩]⟩
    else none

theorem cycFetch_dom : ∀ i, ((cycFetch i).isSome) = true → i ∈ [30, 31] := by
  intro i h
  rw [cycFetch] at h
  by_cases h30 : i = 30
  · subst h30; simp
  · rw [if_neg h30] at h
    by_cases h31 : i = 31
    · subst h31; simp
    · rw [if_neg h31] at h
      exact Bool.noConfusion h

/-- A previously cached spell with id 50. -/
def sp50 : Spell := ⟨50, "Old", [⟨true, 0⟩]⟩

/-- The spell cache loaded for the spells witness run. -/
def spells0c : List Spell := [sp50]

/-- One item granting spell 30 (the entry point of the cycle). -/
def itemsSpc : List Item := [⟨100, "t", [⟨30⟩]⟩]

/-! ## Claim theorems: the cache updaters and the expander -/

/-- C5: under the cache invariant (the loaded collection has pairwise
distinct ids, as every collection this updater ever persists does) and the
fetch contract (a fetched record carries the requested id), the collection
handed to the store write is sorted by strictly ascending id (hence has no
duplicate ids), and the returned id-set is exactly the union of the loaded
cache's ids and the ids for which a fetch succeeds this run — failed ids
excluded. -/
theorem updateItemsCache_sorted_union (fetch : Nat → Option Item)
    (items0 : List Item) (info : List Nat)
    (hnodup : (items0.map (·.ID)).Nodup)
    (hfetch : ∀ i it, fetch i = some it → it.ID = i) :
    (∀ l, (updateItemsCache fetch items0 info).2.2 = some l →
      l.Pairwise (fun a b => a.ID < b.ID)) ∧
    (∀ x, x ∈ (updateItemsCache fetch items0 info).2.1 ↔
      x ∈ items0.map (·.ID) ∨ (x ∈ info ∧ (fetch x).isSome = true)) := by
  have hc0 : cacheOfIDs (items0.map (·.ID)) = items0.map (·.ID) :=
    cacheOfIDs_of_nodup hnodup
  constructor
  · intro l hl
    rw [updateItemsCache_eq] at hl
    by_cases hgrow :
        (fetchLoop fetch info items0 (cacheOfIDs (items0.map (·.ID)))).2.length ≠
          (cacheOfIDs (items0.map (·.ID))).length
    · rw [if_pos hgrow] at hl
      have hl' : some (sortItems
          (fetchLoop fetch info items0 (cacheOfIDs (items0.map (·.ID)))).1) =
          some l := hl
      rw [Option.some_inj] at hl'
      subst hl'
      apply sortItems_strict
      rw [← fetchLoop_tracks fetch hfetch info items0 _ hc0]
      exact fetchLoop_nodup fetch info items0 _ (cacheOfIDs_nodup _)
    · rw [if_neg hgrow] at hl
      exact Option.noConfusion hl
  · intro x
    rw [updateItemsCache_cache, fetchLoop_mem, hc0]

theorem updateItemsCache_sorted_union_witness :
    ([⟨1, "a", []⟩, ⟨2, "b", []⟩] : List Item).Pairwise
      (fun a b => a.ID < b.ID) ∧
    ((2 : Nat) ∈ (updateItemsCache fetchIc items0c infoc).2.1 ↔
      2 ∈ items0c.map (·.ID) ∨ (2 ∈ infoc ∧ (fetchIc 2).isSome = true)) :=
  ⟨(updateItemsCache_sorted_union fetchIc items0c infoc (by decide) fetchIc_id).1
      [⟨1, "a", []⟩, ⟨2, "b", []⟩] rfl,
   (updateItemsCache_sorted_union fetchIc items0c infoc (by decide) fetchIc_id).2 2⟩

/-- C6: a fetch failure is strictly local.  For items: a failing id in the
category list behaves as if it were not listed at all (the remaining ids are
still processed identically) and, if it was not cached before, it is absent
from the resulting id-set, so it will be retried next run.  For spells: a
failing fetch leaves both the collection and the id-set untouched, logs
exactly one fetch attempt and returns normally instead of propagating. -/
theorem fetch_failure_local (fetch : Nat → Option Item) (items0 : List Item)
    (info1 info2 : List Nat) (i : Nat) (hfail : fetch i = none) :
    (updateItemsCache fetch items0 (info1 ++ i :: info2) =
      updateItemsCache fetch items0 (info1 ++ info2)) ∧
    (i ∉ items0.map (·.ID) →
      i ∉ (updateItemsCache fetch items0 (info1 ++ i :: info2)).2.1) ∧
    (∀ (fetchS : Nat → Option Spell) (fuel : Nat) (spells : List Spell)
       (cache : List Nat), fetchS i = none → (cache.contains i) = false →
       cacheRelatedSpells fetchS (fuel + 1) i spells cache =
         some (spells, cache, [i])) := by
  refine ⟨?_, ?_, ?_⟩
  · rw [updateItemsCache_eq, updateItemsCache_eq,
      fetchLoop_skip_failed fetch hfail]
  · intro hni hmem
    rw [updateItemsCache_cache, fetchLoop_mem] at hmem
    rcases hmem with hmem | ⟨_, hsome⟩
    · exact hni (mem_cacheOfIDs.mp hmem)
    · rw [hfail] at hsome
      exact Bool.noConfusion hsome
  · intro fetchS fuel spells cache hfS hcont
    rw [cacheRelatedSpells, if_neg (by rw [hcont]; exact Bool.noConfusion), hfS]

theorem fetch_failure_local_witness :
    (updateItemsCache fetchIc items0c ([1] ++ 3 :: [2]) =
      updateItemsCache fetchIc items0c ([1] ++ [2])) ∧
    (3 : Nat) ∉ (updateItemsCache fetchIc items0c ([1] ++ 3 :: [2])).2.1 ∧
    cacheRelatedSpells cycFetch (3 + 1) 3 [] [] = some ([], [], [3]) :=
  ⟨(fetch_failure_local fetchIc items0c [1] [2] 3 rfl).1,
   (fetch_failure_local fetchIc items0c [1] [2] 3 rfl).2.1 (by decide),
   (fetch_failure_local fetchIc items0c [1] [2] 3 rfl).2.2 cycFetch 3 [] [] rfl rfl⟩

/-- C7: the expander returns immediately when the id is already in the
id-set, adds the id to the collection and the id-set *before* recursing into
the fetched spell's effects (third conjunct: the recursion starts from
`cache ++ [spellID]`), and consequently, for every finite fetch domain `D`
— cycles included — it terminates with fuel `D.length + 1` and the ids whose
fetch attempt succeeds are pairwise distinct: no spell is fetched twice in
one run. -/
theorem cacheRelatedSpells_guard (fetchS : Nat → Option Spell) (D : List Nat)
    (hD : ∀ i, ((fetchS i).isSome) = true → i ∈ D) (spellID : Nat)
    (spells : List Spell) (cache : List Nat) :
    cacheRelatedSpells fetchS (D.length + 1) spellID spells cache ≠ none ∧
    (∀ fuel, (cache.contains spellID) = true →
      cacheRelatedSpells fetchS (fuel + 1) spellID spells cache =
        some (spells, cache, [])) ∧
    (∀ fuel sp, fetchS spellID = some sp → (cache.contains spellID) = false →
      cacheRelatedSpells fetchS (fuel + 1) spellID spells cache =
        relatedFold (fun i spl c => cacheRelatedSpells fetchS fuel i spl c)
          sp.Effects (spells ++ [sp]) (cache ++ [spellID]) [spellID]) ∧
    (∀ fuel r, cacheRelatedSpells fetchS fuel spellID spells cache = some r →
      (r.2.2.filter (fun i => (fetchS i).isSome)).Nodup) := by
  refine ⟨?_, ?_, ?_, ?_⟩
  · exact cacheRelatedSpells_total fetchS D hD (D.length + 1) spellID spells
      cache (Nat.lt_succ_of_le (unvisitedD_card_le D cache))
  · intro fuel hc
    rw [cacheRelatedSpells, if_pos hc]
  · intro fuel sp hsp hc
    rw [cacheRelatedSpells, if_neg (by rw [hc]; exact Bool.noConfusion), hsp]
  · intro fuel r hr
    obtain ⟨ts, us, _, _, _, _, hnd, htr⟩ :=
      cacheRelatedSpells_inv fetchS fuel spellID spells cache r hr
    rw [htr]
    exact hnd

theorem cacheRelatedSpells_guard_witness :
    cacheRelatedSpells cycFetch 3 30 [] [] ≠ none ∧
    cacheRelatedSpells cycFetch 3 30 [] [30] = some ([], [30], []) ∧
    (([30, 31] : List Nat).filter (fun i => (cycFetch i).isSome)).Nodup :=
  ⟨(cacheRelatedSpells_guard cycFetch [30, 31] cycFetch_dom 30 [] []).1,
   (cacheRelatedSpells_guard cycFetch [30, 31] cycFetch_dom 30 [] [30]).2.1 2 rfl,
   (cacheRelatedSpells_guard cycFetch [30, 31] cycFetch_dom 30 [] []).2.2.2 3
     ([⟨30, "CycA", [⟨true, 31⟩]⟩, ⟨31, "CycB", [⟨true, 30⟩]⟩],
      [30, 31], [30, 31]) rfl⟩

/-- C8: for both caches the sort-and-persist step runs exactly when the
id-set grew, and when nothing new was fetched no write is issued and the
returned in-memory collection is the loaded one, unchanged and in its
original order. -/
theorem save_iff_growth (fetch : Nat → Option Item) (items0 : List Item)
    (info : List Nat) (fetchS : Nat → Option Spell) (fuel : Nat)
    (spells0 : List Spell) (items : List Item) :
    ((updateItemsCache fetch items0 info).2.2 ≠ none ↔
      (cacheOfIDs (items0.map (·.ID))).length <
        (updateItemsCache fetch items0 info).2.1.length) ∧
    ((updateItemsCache fetch items0 info).2.2 = none →
      (updateItemsCache fetch items0 info).1 = items0) ∧
    (∀ res, updateSpellsCache fetchS fuel spells0 items = some res →
      ((res.2.1 ≠ none ↔
        (cacheOfIDs (spells0.map (·.ID))).length < res.1.2.length) ∧
       (res.2.1 = none → res.1.1 = spells0))) := by
  obtain ⟨its, ids, heq, hlen, _⟩ :=
    fetchLoop_delta fetch info items0 (cacheOfIDs (items0.map (·.ID)))
  have hloop2 : (fetchLoop fetch info items0
      (cacheOfIDs (items0.map (·.ID)))).2 =
      cacheOfIDs (items0.map (·.ID)) ++ ids := by rw [heq]
  have hloop1 : (fetchLoop fetch info items0
      (cacheOfIDs (items0.map (·.ID)))).1 = items0 ++ its := by rw [heq]
  have hcache := updateItemsCache_cache fetch items0 info
  have hlen2 : (fetchLoop fetch info items0
      (cacheOfIDs (items0.map (·.ID)))).2.length =
      (cacheOfIDs (items0.map (·.ID))).length + ids.length := by
    rw [hloop2, List.length_append]
  refine ⟨?_, ?_, ?_⟩
  · rw [hcache]
    by_cases hgrow :
        (fetchLoop fetch info items0 (cacheOfIDs (items0.map (·.ID)))).2.length ≠
          (cacheOfIDs (items0.map (·.ID))).length
    · have hsaved : (updateItemsCache fetch items0 info).2.2 =
          some (sortItems (fetchLoop fetch info items0
            (cacheOfIDs (items0.map (·.ID)))).1) := by
        rw [updateItemsCache_eq, if_pos hgrow]
      rw [hsaved]
      constructor
      · intro _
        omega
      · intro _ hc
        exact Option.noConfusion hc
    · have hsaved : (updateItemsCache fetch items0 info).2.2 = none := by
        rw [updateItemsCache_eq, if_neg hgrow]
      rw [hsaved]
      rw [not_ne_iff] at hgrow
      constructor
      · intro hc
        exact absurd rfl hc
      · intro hlt
        exfalso
        omega
  · intro hnone
    by_cases hgrow :
        (fetchLoop fetch info items0 (cacheOfIDs (items0.map (·.ID)))).2.length ≠
          (cacheOfIDs (items0.map (·.ID))).length
    · have hsaved : (updateItemsCache fetch items0 info).2.2 =
          some (sortItems (fetchLoop fetch info items0
            (cacheOfIDs (items0.map (·.ID)))).1) := by
        rw [updateItemsCache_eq, if_pos hgrow]
      rw [hsaved] at hnone
      exact Option.noConfusion hnone
    · have hitems : (updateItemsCache fetch items0 info).1 =
          (fetchLoop fetch info items0 (cacheOfIDs (items0.map (·.ID)))).1 := by
        rw [updateItemsCache_eq, if_neg hgrow]
      rw [not_ne_iff] at hgrow
      have h0 : ids.length = 0 := by omega
      have hits0 : its = [] := List.length_eq_zero.mp (by rw [hlen, h0])
      rw [hitems, hloop1, hits0]
      simp
  · intro res hres
    rw [updateSpellsCache_eq] at hres
    cases hsl : cacheSpellsList fetchS fuel
        (items.flatMap fun it => it.Spells.map (·.SpellID)) spells0
        (cacheOfIDs (spells0.map (·.ID))) with
    | none => rw [hsl] at hres; exact absurd hres (by simp)
    | some r =>
      rw [hsl] at hres
      rw [show ((some r).bind fun r =>
        if r.2.1.length ≠ (cacheOfIDs (spells0.map (·.ID))).length then
          some ((sortSpells r.1, r.2.1), some (sortSpells r.1), r.2.2)
        else some ((r.1, r.2.1), none, r.2.2)) =
        (if r.2.1.length ≠ (cacheOfIDs (spells0.map (·.ID))).length then
          some ((sortSpells r.1, r.2.1), some (sortSpells r.1), r.2.2)
        else some ((r.1, r.2.1), none, r.2.2)) from rfl] at hres
      obtain ⟨ts, us, hsp, hc, hlenS, _, _, _⟩ :=
        cacheSpellsList_inv fetchS fuel _ spells0 _ r hsl
      have hclen : r.2.1.length =
          (cacheOfIDs (spells0.map (·.ID))).length + us.length := by
        rw [hc, List.length_append]
      by_cases hgrow : r.2.1.length ≠ (cacheOfIDs (spells0.map (·.ID))).length
      · rw [if_pos hgrow, Option.some_inj] at hres
        subst hres
        refine ⟨⟨?_, ?_⟩, ?_⟩
        · intro _
          show (cacheOfIDs (spells0.map (·.ID))).length < r.2.1.length
          omega
        · intro _ hcon
          exact Option.noConfusion hcon
        · intro hcon
          exact Option.noConfusion hcon
      · rw [if_neg hgrow, Option.some_inj] at hres
        subst hres
        rw [not_ne_iff] at hgrow
        have h0 : us.length = 0 := by omega
        have hts0 : ts = [] := List.length_eq_zero.mp (by rw [hlenS, h0])
        refine ⟨⟨?_, ?_⟩, fun _ => ?_⟩
        · intro hcon
          exact absurd rfl hcon
        · intro hlt
          exfalso
          have hlt' : (cacheOfIDs (spells0.map (·.ID))).length <
              r.2.1.length := hlt
          omega
        · show r.1 = spells0
          rw [hsp, hts0]
          simp

/-- The value `updateSpellsCache cycFetch 3 spells0c itemsSpc` computes to
(used by the witnesses below). -/
def resSpc : (List Spell × List Nat) × Option (List Spell) × List Nat :=
  (([⟨30, "CycA", [⟨true, 31⟩]⟩, ⟨31, "CycB", [⟨true, 30⟩]⟩, sp50], [50, 30, 31]),
   some [⟨30, "CycA", [⟨true, 31⟩]⟩, ⟨31, "CycB", [⟨true, 30⟩]⟩, sp50],
   [30, 31])

theorem save_iff_growth_witness :
    ((updateItemsCache fetchIc items0c infoc).2.2 ≠ none ↔
      (cacheOfIDs (items0c.map (·.ID))).length <
        (updateItemsCache fetchIc items0c infoc).2.1.length) ∧
    ((updateItemsCache fetchIc items0c infoc).2.2 = none →
      (updateItemsCache fetchIc items0c infoc).1 = items0c) ∧
    ((resSpc.2.1 ≠ none ↔
        (cacheOfIDs (spells0c.map (·.ID))).length < resSpc.1.2.length) ∧
      (resSpc.2.1 = none → resSpc.1.1 = spells0c)) :=
  ⟨(save_iff_growth fetchIc items0c infoc cycFetch 3 spells0c itemsSpc).1,
   (save_iff_growth fetchIc items0c infoc cycFetch 3 spells0c itemsSpc).2.1,
   (save_iff_growth fetchIc items0c infoc cycFetch 3 spells0c itemsSpc).2.2
     resSpc rfl⟩

theorem mem_sortItems {l : List Item} {r : Item} (h : r ∈ l) :
    r ∈ sortItems l := by
  rw [sortItems]
  exact ((List.perm_insertionSort _ l).mem_iff).mpr h

theorem mem_sortSpells {l : List Spell} {r : Spell} (h : r ∈ l) :
    r ∈ sortSpells l := by
  rw [sortSpells]
  exact ((List.perm_insertionSort _ l).mem_iff).mpr h

/-- C9: cache updates are monotone and append-only — every loaded record is
still present in the returned collection, the returned id-set contains every
loaded id, and one expander call extends the collection and the id-set
purely by appending. -/
theorem caches_monotone (fetch : Nat → Option Item) (items0 : List Item)
    (info : List Nat) (fetchS : Nat → Option Spell) (fuel : Nat)
    (spells0 : List Spell) (items : List Item)
    (fuel2 spellID : Nat) (sp : List Spell) (c : List Nat) :
    (∀ r ∈ items0, r ∈ (updateItemsCache fetch items0 info).1) ∧
    (∀ x ∈ items0.map (·.ID), x ∈ (updateItemsCache fetch items0 info).2.1) ∧
    (∀ res, updateSpellsCache fetchS fuel spells0 items = some res →
      (∀ r ∈ spells0, r ∈ res.1.1) ∧
      (∀ x ∈ spells0.map (·.ID), x ∈ res.1.2)) ∧
    (∀ r, cacheRelatedSpells fetchS fuel2 spellID sp c = some r →
      ∃ ts us, r.1 = sp ++ ts ∧ r.2.1 = c ++ us) := by
  obtain ⟨its, ids, heq, _, _⟩ :=
    fetchLoop_delta fetch info items0 (cacheOfIDs (items0.map (·.ID)))
  have hloop1 : (fetchLoop fetch info items0
      (cacheOfIDs (items0.map (·.ID)))).1 = items0 ++ its := by rw [heq]
  refine ⟨?_, ?_, ?_, ?_⟩
  · intro r hr
    by_cases hgrow :
        (fetchLoop fetch info items0 (cacheOfIDs (items0.map (·.ID)))).2.length ≠
          (cacheOfIDs (items0.map (·.ID))).length
    · have hitems : (updateItemsCache fetch items0 info).1 =
          sortItems (fetchLoop fetch info items0
            (cacheOfIDs (items0.map (·.ID)))).1 := by
        rw [updateItemsCache_eq, if_pos hgrow]
      rw [hitems]
      apply mem_sortItems
      rw [hloop1]
      exact List.mem_append.mpr (Or.inl hr)
    · have hitems : (updateItemsCache fetch items0 info).1 =
          (fetchLoop fetch info items0 (cacheOfIDs (items0.map (·.ID)))).1 := by
        rw [updateItemsCache_eq, if_neg hgrow]
      rw [hitems, hloop1]
      exact List.mem_append.mpr (Or.inl hr)
  · intro x hx
    rw [updateItemsCache_cache, fetchLoop_mem]
    exact Or.inl (mem_cacheOfIDs.mpr hx)
  · intro res hres
    rw [updateSpellsCache_eq] at hres
    cases hsl : cacheSpellsList fetchS fuel
        (items.flatMap fun it => it.Spells.map (·.SpellID)) spells0
        (cacheOfIDs (spells0.map (·.ID))) with
    | none => rw [hsl] at hres; exact absurd hres (by simp)
    | some r =>
      rw [hsl] at hres
      rw [show ((some r).bind fun r =>
        if r.2.1.length ≠ (cacheOfIDs (spells0.map (·.ID))).length then
          some ((sortSpells r.1, r.2.1), some (sortSpells r.1), r.2.2)
        else some ((r.1, r.2.1), none, r.2.2)) =
        (if r.2.1.length ≠ (cacheOfIDs (spells0.map (·.ID))).length then
          some ((sortSpells r.1, r.2.1), some (sortSpells r.1), r.2.2)
        else some ((r.1, r.2.1), none, r.2.2)) from rfl] at hres
      obtain ⟨ts, us, hsp, hc, _, _, _, _⟩ :=
        cacheSpellsList_inv fetchS fuel _ spells0 _ r hsl
      have hcachemem : ∀ x ∈ spells0.map (·.ID), x ∈ r.2.1 := by
        intro x hx
        rw [hc]
        exact List.mem_append.mpr (Or.inl (mem_cacheOfIDs.mpr hx))
      by_cases hgrow : r.2.1.length ≠ (cacheOfIDs (spells0.map (·.ID))).length
      · rw [if_pos hgrow, Option.some_inj] at hres
        subst hres
        constructor
        · intro rr hrr
          show rr ∈ sortSpells r.1
          apply mem_sortSpells
          rw [hsp]
          exact List.mem_append.mpr (Or.inl hrr)
        · exact hcachemem
      · rw [if_neg hgrow, Option.some_inj] at hres
        subst hres
        constructor
        · intro rr hrr
          show rr ∈ r.1
          rw [hsp]
          exact List.mem_append.mpr (Or.inl hrr)
        · exact hcachemem
  · intro r hr
    obtain ⟨ts, us, hsp, hc, _, _, _, _⟩ :=
      cacheRelatedSpells_inv fetchS fuel2 spellID sp c r hr
    exact ⟨ts, us, hsp, hc⟩

theorem caches_monotone_witness :
    (⟨1, "a", []⟩ : Item) ∈ (updateItemsCache fetchIc items0c infoc).1 ∧
    (1 : Nat) ∈ (updateItemsCache fetchIc items0c infoc).2.1 ∧
    sp50 ∈ resSpc.1.1 ∧ (50 : Nat) ∈ resSpc.1.2 :=
  ⟨(caches_monotone fetchIc items0c infoc cycFetch 3 spells0c itemsSpc 3 30
      [] []).1 ⟨1, "a", []⟩ (by decide),
   (caches_monotone fetchIc items0c infoc cycFetch 3 spells0c itemsSpc 3 30
      [] []).2.1 1 (by decide),
   ((caches_monotone fetchIc items0c infoc cycFetch 3 spells0c itemsSpc 3 30
      [] []).2.2.1 resSpc rfl).1 sp50 (by decide),
   ((caches_monotone fetchIc items0c infoc cycFetch 3 spells0c itemsSpc 3 30
      [] []).2.2.1 resSpc rfl).2 50 (by decide)⟩
